import Mathlib

set_option maxRecDepth 4000

/-!
Verification of the prototype-selection module (`prototypeSelection.py`).

The module works on a skbio `DistanceMatrix` (an ordered sequence of unique string
ids plus a dense square matrix of pairwise distances) and offers three selectors:
an exhaustive one, a greedy max-distance one, and an epsilon-ball coverage one
driven by an adaptive search over epsilon.  Distances are embedded as rationals,
machine floats being irrelevant to the claims checked here; numpy integer scores
are embedded as integers.
-/

/-- Outcomes of the selectors, named after the error taxonomy of the specification.
`InvalidPrototypeCount` stands for the `ValueError` raised by the `num_prototypes`
validation, `ResourceExhausted` for the `RuntimeError` raised at the combination
ceiling of the exhaustive selector, `ConvergenceFailure` for the `RuntimeError`
raised by the epsilon search, `BroadcastError` for the `ValueError` numpy raises
when arrays of incompatible lengths are combined elementwise, `EmptyArgmax` for the
`ValueError` numpy raises when `argmax` is taken over an empty array, and
`TypeErrorNone` for the `TypeError` that `list(None)` raises. -/
inductive SelectionError where
  | InvalidPrototypeCount
  | ResourceExhausted
  | ConvergenceFailure
  | BroadcastError
  | EmptyArgmax
  | TypeErrorNone
  deriving DecidableEq, Repr

/-- Shallow embedding of a skbio `DistanceMatrix`: the ordered id sequence together
with the dense matrix of pairwise distances, read through the total function `d`
on index pairs (entries outside the square range are never consulted). -/
structure DistanceMatrix where
  ids : List String
  d : ℕ → ℕ → ℚ

/-- Number of elements of the matrix, `len(dm.ids)`. -/
def DistanceMatrix.n (dm : DistanceMatrix) : ℕ := dm.ids.length

/-- The input contract guaranteed by the skbio collaborator: unique ids and a
symmetric, zero-diagonal, non-negative matrix. -/
abbrev ValidDM (dm : DistanceMatrix) : Prop :=
  dm.ids.Nodup ∧
  (∀ i < dm.n, ∀ j < dm.n, dm.d i j = dm.d j i) ∧
  (∀ i < dm.n, dm.d i i = 0) ∧
  (∀ i < dm.n, ∀ j < dm.n, 0 ≤ dm.d i j)

/-- Position of an id in the id sequence of the matrix, as used by
`dm.filter(elements)` to build the induced sub-matrix. -/
def idIndex (dm : DistanceMatrix) (x : String) : ℕ := dm.ids.indexOf x

/-- Sum of the lower triangle, diagonal included, of the sub-matrix induced by the
index list `L`: the value of `np.tril(M).sum()` for `M[a][b] = d (L a) (L b)`. -/
def trilSum (d : ℕ → ℕ → ℚ) : List ℕ → ℚ
  | [] => 0
  | x :: xs => d x x + (xs.map (fun y => d y x)).sum + trilSum d xs

/-- Sum of the entries strictly below the diagonal of the sub-matrix induced by the
index list `L`. -/
def lowerSum (d : ℕ → ℕ → ℚ) : List ℕ → ℚ
  | [] => 0
  | x :: xs => (xs.map (fun y => d y x)).sum + lowerSum d xs

/-- The objective evaluator of the module:
`distance_sum(elements, dm) = np.tril(dm.filter(elements).data).sum()`. -/
def distance_sum (elements : List String) (dm : DistanceMatrix) : ℚ :=
  trilSum dm.d (elements.map (idIndex dm))

/-- First-occurrence argmax over indices `0, …, n-1`, as computed by
`numpy.argmax`: a left fold that replaces the current best index only on a
strictly greater value. -/
def np_argmax {α : Type} [LinearOrder α] (f : ℕ → α) (n : ℕ) : ℕ :=
  (List.range n).foldl (fun best j => if f best < f j then j else best) 0

/-- The sequence `itertools.combinations(l, k)` in its generation order: all
length-`k` sublists of `l`, lexicographic in index positions. -/
def combinations {α : Type} : ℕ → List α → List (List α)
  | 0, _ => [[]]
  | _ + 1, [] => []
  | k + 1, x :: xs => (combinations k xs).map (fun t => x :: t) ++ combinations (k + 1) xs

/-- One pass of the maximum search of the exhaustive selector: the running best is
replaced only when the new objective value is strictly greater. -/
def exhStep (dm : DistanceMatrix) (acc : Option (ℚ × List String)) (s : List String) :
    Option (ℚ × List String) :=
  match acc with
  | none => some (distance_sum s dm, s)
  | some (m, ms) => if m < distance_sum s dm then some (distance_sum s dm, s) else some (m, ms)

/-- The exhaustive selector.  The source iterates over
`set(combinations(dm.ids, num_prototypes))`; the iteration order of a Python set of
string tuples is unspecified (string hashing is randomized), so the embedding takes
that order as the explicit argument `order`, constrained in the theorems to be a
permutation of the lexicographic combination list.  The initial best is `-inf`,
so the first combination always replaces it; this is embedded with `Option`. -/
def prototype_selection_exhaustive (dm : DistanceMatrix) (num_prototypes : ℕ)
    (max_combinations_to_test : ℕ) (order : List (List String)) :
    Except SelectionError (List String) :=
  if num_prototypes < 2 then .error .InvalidPrototypeCount
  else if dm.n ≤ num_prototypes then .error .InvalidPrototypeCount
  else if max_combinations_to_test ≤ Nat.choose dm.n num_prototypes then
    .error .ResourceExhausted
  else
    match order.foldl (exhStep dm) none with
    | none => .error .TypeErrorNone
    | some (_, ms) => .ok ms

/-- Row-major argmax over the whole matrix followed by `np.unravel_index`: the seed
pair of the greedy max-distance selector. -/
def maxdistSeed (dm : DistanceMatrix) : ℕ × ℕ :=
  let flat := np_argmax (fun f => dm.d (f / dm.n) (f % dm.n)) (dm.n * dm.n)
  (flat / dm.n, flat % dm.n)

/-- State after the seeding phase of the greedy max-distance selector: the
discovery-order prototype index list `res_set` and the `uncovered` flags. -/
def maxdistInit (dm : DistanceMatrix) : List ℕ × (ℕ → Bool) :=
  ([(maxdistSeed dm).1, (maxdistSeed dm).2],
   fun j => !(j == (maxdistSeed dm).1 || j == (maxdistSeed dm).2))

/-- One iteration of the greedy loop: sum the rows of the current prototypes (with
multiplicity, as numpy fancy indexing does), mask by the uncovered flags through
boolean multiplication, take the first-occurrence argmax, mark it covered and
append it to the discovery list. -/
def maxdistStep (d : ℕ → ℕ → ℚ) (n : ℕ) (st : List ℕ × (ℕ → Bool)) :
    List ℕ × (ℕ → Bool) :=
  let masked : ℕ → ℚ :=
    fun j => (st.1.map (fun r => d r j)).sum * (if st.2 j then 1 else 0)
  let m := np_argmax masked n
  (st.1 ++ [m], fun j => if j = m then false else st.2 j)

/-- The greedy loop.  `num_found_prototypes` equals the length of `res_set` and is
incremented exactly once per iteration, so the `while` loop runs exactly
`num_prototypes - 2` times; the embedding recurses on that count. -/
def maxdistLoop (d : ℕ → ℕ → ℚ) (n : ℕ) : ℕ → List ℕ × (ℕ → Bool) → List ℕ × (ℕ → Bool)
  | 0, st => st
  | s + 1, st => maxdistLoop d n s (maxdistStep d n st)

/-- Final internal state of the greedy max-distance selector. -/
def maxdistState (dm : DistanceMatrix) (num_prototypes : ℕ) : List ℕ × (ℕ → Bool) :=
  maxdistLoop dm.d dm.n (num_prototypes - 2) (maxdistInit dm)

/-- The greedy max-distance selector.  The returned ids are read off the
`uncovered` flags in ascending index order, exactly as in the source
(`[dm.ids[idx] for idx, x in enumerate(uncovered) if not x]`). -/
def prototype_selection_constructive_maxdist (dm : DistanceMatrix)
    (num_prototypes : ℕ) : Except SelectionError (List String) :=
  if num_prototypes < 2 then .error .InvalidPrototypeCount
  else if dm.n ≤ num_prototypes then .error .InvalidPrototypeCount
  else
    .ok (((List.range dm.n).filter
        (fun j => !((maxdistState dm num_prototypes).2 j))).map
      (fun j => dm.ids.getD j ""))

/-- The coverage relation `B = dm.data < epsilon` of the epsilon-ball step. -/
def ballMatrix (dm : DistanceMatrix) (epsilon : ℚ) : ℕ → ℕ → Bool :=
  fun i j => decide (dm.d i j < epsilon)

/-- Initial scores of the epsilon-ball step: column sums `B.sum(axis=0)`. -/
def protoInitScores (B : ℕ → ℕ → Bool) (n : ℕ) : ℕ → ℤ :=
  fun j => ((List.range n).countP (fun i => B i j) : ℤ)

/-- Body of a prototype-appending iteration of the coverage loop.  Note that the
source stores `covered` in a Python list and `covered += justcovered` extends that
list with the entries of the numpy array `justcovered` (Python list `+=` is
`extend`), so the covered list grows from length `n` to length `2 n`; this is
reproduced faithfully by the `++`. -/
def protoNext (B : ℕ → ℕ → Bool) (n : ℕ) (covered : List Bool) (scores : ℕ → ℤ)
    (prototypes : List ℕ) : List Bool × (ℕ → ℤ) × List ℕ :=
  let idx := np_argmax scores n
  let justcovered : ℕ → Bool := fun x => B x idx && !(covered.getD x false)
  (covered ++ (List.range n).map justcovered,
   fun j => scores j - ((List.range n).countP (fun x => justcovered x && B x j) : ℤ),
   prototypes ++ [idx])

/-- The `while True` coverage loop of `_protoclass`, embedded with explicit fuel
(`none` marks fuel exhaustion; the theorems show the loop always answers within
two iterations).  `argmax` on an empty array raises, hence the `n = 0` branch; a
prototype-appending iteration whose covered list no longer has length `n` raises
the numpy broadcast error, because `B[:, idx_max]` (length `n`) and
`np.logical_not(covered)` no longer align. -/
def protoLoop (B : ℕ → ℕ → Bool) (n : ℕ) :
    ℕ → List Bool → (ℕ → ℤ) → List ℕ → Option (Except SelectionError (List ℕ))
  | 0, _, _, _ => none
  | fuel + 1, covered, scores, prototypes =>
    if n = 0 then some (.error .EmptyArgmax)
    else
      let idx := np_argmax scores n
      if 0 < scores idx then
        if covered.length = n then
          let st := protoNext B n covered scores prototypes
          protoLoop B n fuel st.1 st.2.1 st.2.2
        else some (.error .BroadcastError)
      else some (.ok prototypes)

/-- The coverage step `_protoclass(dm, epsilon)` of the source: run the loop from
the all-uncovered state and map the selected indices back to ids
(`np.array(dm.ids)[prototypes]`). -/
def protoclass (dm : DistanceMatrix) (epsilon : ℚ) (fuel : ℕ) :
    Option (Except SelectionError (List String)) :=
  (protoLoop (ballMatrix dm epsilon) dm.n fuel (List.replicate dm.n false)
      (protoInitScores (ballMatrix dm epsilon) dm.n) []).map
    (fun r => r.map (fun ps => ps.map (fun i => dm.ids.getD i "")))

/-- States of the coverage loop reachable from its initial state; the `step`
constructor fires exactly under the conditions in which `protoLoop` recurses. -/
inductive ProtoReach (B : ℕ → ℕ → Bool) (n : ℕ) :
    List Bool → (ℕ → ℤ) → List ℕ → Prop where
  | init : ProtoReach B n (List.replicate n false) (protoInitScores B n) []
  | step : ∀ covered scores prototypes,
      ProtoReach B n covered scores prototypes →
      n ≠ 0 →
      0 < scores (np_argmax scores n) →
      covered.length = n →
      ProtoReach B n (protoNext B n covered scores prototypes).1
        (protoNext B n covered scores prototypes).2.1
        (protoNext B n covered scores prototypes).2.2

/-- Arithmetic mean of all matrix entries, `dm.data.mean()`, the initial epsilon of
the search wrapper. -/
def meanEntry (dm : DistanceMatrix) : ℚ :=
  ((List.range dm.n).map
      (fun i => ((List.range dm.n).map (fun j => dm.d i j)).sum)).sum /
    ((dm.n * dm.n : ℕ) : ℚ)

/-- Post-loop code of the epsilon-search wrapper: fail on undershoot, silently
truncate on overshoot. -/
def protoPost (num_prototypes : ℕ) (prototypes : List String) :
    Except SelectionError (List String) :=
  if prototypes.length < num_prototypes then .error .ConvergenceFailure
  else .ok (prototypes.take num_prototypes)

/-- The `for i in range(steps)` search loop of the wrapper.  Each iteration grows
the step size by the factor 1.1, runs the coverage step, recomputes the direction,
damps the step size by the factor 10 on a direction change, moves epsilon, and
breaks out to the post-loop code when exactly `num_prototypes` prototypes were
found.  An exception from the coverage step propagates. -/
def protoclassLoop (dm : DistanceMatrix) (num_prototypes fuel : ℕ) :
    ℕ → ℚ → ℚ → ℚ → List String → Option (Except SelectionError (List String))
  | 0, _, _, _, prototypes => some (protoPost num_prototypes prototypes)
  | steps + 1, epsilon, stepSize, direction, _ =>
    let stepSize1 := stepSize * (11 / 10)
    match protoclass dm epsilon fuel with
    | none => none
    | some (.error e) => some (.error e)
    | some (.ok protos) =>
      let direction1 : ℚ :=
        if num_prototypes < protos.length then 1
        else if protos.length < num_prototypes then -1
        else direction
      let stepSize2 := if direction1 ≠ direction then stepSize1 / 10 else stepSize1
      let epsilon1 := epsilon + direction1 * stepSize2
      if protos.length = num_prototypes then some (protoPost num_prototypes protos)
      else protoclassLoop dm num_prototypes fuel steps epsilon1 stepSize2 direction1 protos

/-- The epsilon-search selector `prototype_selection_constructive_protoclass`:
validate, then search from `epsilon = dm.data.mean()`, `stepSize = 0.2`,
`direction = 0`, `prototypes = []`. -/
def prototype_selection_constructive_protoclass (dm : DistanceMatrix)
    (num_prototypes steps fuel : ℕ) : Option (Except SelectionError (List String)) :=
  if num_prototypes < 2 then some (.error .InvalidPrototypeCount)
  else if dm.n ≤ num_prototypes then some (.error .InvalidPrototypeCount)
  else protoclassLoop dm num_prototypes fuel steps (meanEntry dm) (2 / 10) 0 []

/-- Concrete matrix: three ids at pairwise distance zero (a valid, if degenerate,
distance matrix). -/
def dmZero : DistanceMatrix := ⟨["a", "b", "c"], fun _ _ => 0⟩

/-- Concrete matrix: three ids at pairwise distance one. -/
def dmOnes : DistanceMatrix :=
  ⟨["a", "b", "c"], fun i j => if i = j then 0 else if i < 3 ∧ j < 3 then 1 else 0⟩

/-- Concrete matrix with a tie: distance one between a and b and between a and c,
distance zero between b and c. -/
def dmTie : DistanceMatrix :=
  ⟨["a", "b", "c"], fun i j =>
    if i = j then 0
    else if (i = 0 ∧ j = 1) ∨ (i = 1 ∧ j = 0) ∨ (i = 0 ∧ j = 2) ∨ (i = 2 ∧ j = 0) then 1
    else 0⟩

/-- A possible iteration order of `set(combinations(dmTie.ids, 2))`: the reverse of
the lexicographic generation order. -/
def revOrderTie : List (List String) := [["b", "c"], ["a", "c"], ["a", "b"]]

/-- The first-occurrence argmax fold either keeps its seed or answers an element of
the candidate list. -/
theorem argmaxFold_eq_or_mem {α : Type} [LinearOrder α] (f : ℕ → α) :
    ∀ (l : List ℕ) (b : ℕ),
      l.foldl (fun best j => if f best < f j then j else best) b = b ∨
      l.foldl (fun best j => if f best < f j then j else best) b ∈ l := by
  intro l
  induction l with
  | nil => intro b; exact Or.inl rfl
  | cons x xs ih =>
    intro b
    simp only [List.foldl_cons]
    rcases ih (if f b < f x then x else b) with h | h
    · rw [h]
      split
      · exact Or.inr (List.mem_cons_self x xs)
      · exact Or.inl rfl
    · exact Or.inr (List.mem_cons_of_mem x h)

/-- The first-occurrence argmax fold dominates its seed and every candidate. -/
theorem argmaxFold_le {α : Type} [LinearOrder α] (f : ℕ → α) :
    ∀ (l : List ℕ) (b : ℕ),
      f b ≤ f (l.foldl (fun best j => if f best < f j then j else best) b) ∧
      ∀ j ∈ l, f j ≤ f (l.foldl (fun best j => if f best < f j then j else best) b) := by
  intro l
  induction l with
  | nil => intro b; exact ⟨le_refl _, by simp⟩
  | cons x xs ih =>
    intro b
    simp only [List.foldl_cons]
    obtain ⟨h1, h2⟩ := ih (if f b < f x then x else b)
    constructor
    · refine le_trans ?_ h1
      split
      · exact le_of_lt (by assumption)
      · exact le_refl _
    · intro j hj
      rcases List.mem_cons.mp hj with rfl | hj
      · refine le_trans ?_ h1
        split
        · exact le_refl _
        · exact le_of_not_lt (by assumption)
      · exact h2 j hj

/-- On a nonempty index range, `numpy.argmax` answers an index in range. -/
theorem np_argmax_lt {α : Type} [LinearOrder α] (f : ℕ → α) (n : ℕ) (hn : 0 < n) :
    np_argmax f n < n := by
  rcases argmaxFold_eq_or_mem f (List.range n) 0 with h | h
  · simp only [np_argmax]
    rw [h]
    exact hn
  · exact List.mem_range.mp (by simpa only [np_argmax] using h)

/-- `numpy.argmax` attains the maximum over the index range. -/
theorem np_argmax_ge {α : Type} [LinearOrder α] (f : ℕ → α) (n : ℕ) :
    ∀ j < n, f j ≤ f (np_argmax f n) := by
  intro j hj
  simp only [np_argmax]
  exact (argmaxFold_le f (List.range n) 0).2 j (List.mem_range.mpr hj)

/-- Membership in the combination list is exactly being a length-`k` sublist. -/
theorem mem_combinations {α : Type} : ∀ {l : List α} {k : ℕ} {s : List α},
    s ∈ combinations k l ↔ s.Sublist l ∧ s.length = k := by
  intro l
  induction l with
  | nil =>
    intro k s
    cases k with
    | zero =>
      constructor
      · intro hs
        have hs' : s = [] := by simpa [combinations] using hs
        subst hs'
        exact ⟨List.nil_sublist _, rfl⟩
      · intro h
        have hs' : s = [] := List.sublist_nil.mp h.1
        subst hs'
        simp [combinations]
    | succ k =>
      constructor
      · intro hs
        simp [combinations] at hs
      · intro h
        have hs' : s = [] := List.sublist_nil.mp h.1
        subst hs'
        simp at h
  | cons x xs ih =>
    intro k s
    cases k with
    | zero =>
      constructor
      · intro hs
        have hs' : s = [] := by simpa [combinations] using hs
        subst hs'
        exact ⟨List.nil_sublist _, rfl⟩
      · intro h
        have hs' : s = [] := List.length_eq_zero.mp h.2
        subst hs'
        simp [combinations]
    | succ k =>
      constructor
      · intro hs
        rcases List.mem_append.mp (by simpa only [combinations] using hs) with h | h
        · rcases List.mem_map.mp h with ⟨t, ht, rfl⟩
          obtain ⟨hsub, hlen⟩ := ih.mp ht
          exact ⟨List.Sublist.cons₂ x hsub, by simp [hlen]⟩
        · obtain ⟨hsub, hlen⟩ := ih.mp h
          exact ⟨hsub.cons x, hlen⟩
      · intro h
        rcases List.sublist_cons_iff.mp h.1 with hsub | ⟨r, rfl, hr⟩
        · have : s ∈ combinations (k + 1) xs := ih.mpr ⟨hsub, h.2⟩
          simp only [combinations, List.mem_append]
          exact Or.inr this
        · have hrlen : r.length = k := by
            have := h.2
            simpa using this
          have : r ∈ combinations k xs := ih.mpr ⟨hr, hrlen⟩
          simp only [combinations, List.mem_append, List.mem_map]
          exact Or.inl ⟨r, this, rfl⟩

/-- Combinations of a duplicate-free list are pairwise distinct: `set(...)` does
not collapse any of them. -/
theorem nodup_combinations {α : Type} : ∀ {l : List α}, l.Nodup →
    ∀ {k : ℕ}, (combinations k l).Nodup := by
  intro l
  induction l with
  | nil =>
    intro _ k
    cases k <;> simp [combinations]
  | cons x xs ih =>
    intro hnd k
    obtain ⟨hx, hxs⟩ := List.nodup_cons.mp hnd
    cases k with
    | zero => simp [combinations]
    | succ k =>
      simp only [combinations]
      refine List.Nodup.append ?_ (ih hxs) ?_
      · exact (ih hxs).map (fun a b h => by injection h)
      · intro a ha hb
        rcases List.mem_map.mp ha with ⟨t, _, rfl⟩
        have hsub : (x :: t).Sublist xs := (mem_combinations.mp hb).1
        exact hx (hsub.subset (List.mem_cons_self x t))

/-- There is at least one combination whenever `k` does not exceed the length. -/
theorem combinations_ne_nil {α : Type} : ∀ {l : List α} {k : ℕ},
    k ≤ l.length → combinations k l ≠ [] := by
  intro l
  induction l with
  | nil =>
    intro k hk
    cases k with
    | zero => simp [combinations]
    | succ k => simp at hk
  | cons x xs ih =>
    intro k hk
    cases k with
    | zero => simp [combinations]
    | succ k =>
      simp only [combinations]
      intro hcontra
      obtain ⟨h1, _⟩ := List.append_eq_nil.mp hcontra
      exact ih (by simpa using hk) (List.map_eq_nil_iff.mp h1)

/-- Splitting a sum of pointwise additions. -/
theorem sum_map_add (l : List ℕ) (f g : ℕ → ℚ) :
    (l.map (fun y => f y + g y)).sum = (l.map f).sum + (l.map g).sum := by
  induction l with
  | nil => simp
  | cons x xs ih => simp [ih]; ring

/-- The full lower triangle is the diagonal plus the strict lower triangle. -/
theorem trilSum_eq_diag_add_lower (d : ℕ → ℕ → ℚ) :
    ∀ L : List ℕ, trilSum d L = (L.map (fun x => d x x)).sum + lowerSum d L := by
  intro L
  induction L with
  | nil => simp [trilSum, lowerSum]
  | cons x xs ih =>
    simp only [trilSum, lowerSum, ih, List.map_cons, List.sum_cons]
    ring

/-- The strict lower-triangle sum is invariant under permutations of the index
list, provided the matrix is symmetric on the indices involved. -/
theorem lowerSum_perm (d : ℕ → ℕ → ℚ) {L1 L2 : List ℕ} (h : L1.Perm L2)
    (hsym : ∀ i ∈ L1, ∀ j ∈ L1, d i j = d j i) : lowerSum d L1 = lowerSum d L2 := by
  induction h with
  | nil => rfl
  | cons x h ih =>
    simp only [lowerSum]
    rw [ih (fun i hi j hj =>
          hsym i (List.mem_cons_of_mem _ hi) j (List.mem_cons_of_mem _ hj)),
        ((h.map (fun y => d y x)).sum_eq)]
  | swap x y l =>
    simp only [lowerSum, List.map_cons, List.sum_cons]
    have hxy : d x y = d y x :=
      hsym x (List.mem_cons_of_mem _ (List.mem_cons_self _ _)) y (List.mem_cons_self _ _)
    rw [hxy]
    ring
  | trans h1 h2 ih1 ih2 =>
    rw [ih1 hsym, ih2 (fun i hi j hj => hsym i (h1.mem_iff.mpr hi) j (h1.mem_iff.mpr hj))]

/-- The full lower-triangle sum is invariant under permutations of the index list,
provided the matrix is symmetric on the indices involved. -/
theorem trilSum_perm (d : ℕ → ℕ → ℚ) {L1 L2 : List ℕ} (h : L1.Perm L2)
    (hsym : ∀ i ∈ L1, ∀ j ∈ L1, d i j = d j i) : trilSum d L1 = trilSum d L2 := by
  rw [trilSum_eq_diag_add_lower, trilSum_eq_diag_add_lower,
    ((h.map (fun x => d x x)).sum_eq), lowerSum_perm d h hsym]

/-- Lower-triangle sum of a concatenation: the two blocks plus the cross terms. -/
theorem trilSum_append (d : ℕ → ℕ → ℚ) :
    ∀ (A B : List ℕ), trilSum d (A ++ B) =
      trilSum d A + (B.map (fun y => (A.map (fun x => d y x)).sum)).sum + trilSum d B := by
  intro A B
  induction A with
  | nil => simp [trilSum]
  | cons x A ih =>
    simp only [List.cons_append, trilSum, List.append_eq, List.map_append,
      List.sum_append, ih, List.map_cons, List.sum_cons, sum_map_add B (fun y => d y x)]
    ring

/-- A sum of non-negative mapped values is non-negative. -/
theorem sum_map_nonneg {l : List ℕ} {f : ℕ → ℚ} (h : ∀ x ∈ l, 0 ≤ f x) :
    0 ≤ (l.map f).sum := by
  induction l with
  | nil => simp
  | cons x xs ih =>
    simp only [List.map_cons, List.sum_cons]
    have := h x (List.mem_cons_self _ _)
    have := ih (fun y hy => h y (List.mem_cons_of_mem _ hy))
    linarith

/-- The full lower-triangle sum of a non-negative block is non-negative. -/
theorem trilSum_nonneg (d : ℕ → ℕ → ℚ) :
    ∀ L : List ℕ, (∀ i ∈ L, ∀ j ∈ L, 0 ≤ d i j) → 0 ≤ trilSum d L := by
  intro L
  induction L with
  | nil => simp [trilSum]
  | cons x xs ih =>
    intro h
    simp only [trilSum]
    have h1 : 0 ≤ d x x := h x (List.mem_cons_self _ _) x (List.mem_cons_self _ _)
    have h2 : 0 ≤ (xs.map (fun y => d y x)).sum :=
      sum_map_nonneg (fun y hy =>
        h y (List.mem_cons_of_mem _ hy) x (List.mem_cons_self _ _))
    have h3 : 0 ≤ trilSum d xs :=
      ih (fun i hi j hj => h i (List.mem_cons_of_mem _ hi) j (List.mem_cons_of_mem _ hj))
    linarith

/-- For a duplicate-free index list over a symmetric, zero-diagonal matrix, the
strict lower-triangle sum is half the full double sum over the index set, which is
the sum over unordered pairs of distinct indices. -/
theorem lowerSum_nodup_eq_half (d : ℕ → ℕ → ℚ) :
    ∀ L : List ℕ, L.Nodup → (∀ i ∈ L, ∀ j ∈ L, d i j = d j i) → (∀ i ∈ L, d i i = 0) →
      lowerSum d L = (∑ a ∈ L.toFinset, ∑ b ∈ L.toFinset, d a b) / 2 := by
  intro L
  induction L with
  | nil => simp [lowerSum]
  | cons x xs ih =>
    intro hnd hsym hdiag
    obtain ⟨hx, hxs⟩ := List.nodup_cons.mp hnd
    have hxf : x ∉ xs.toFinset := by simpa using hx
    simp only [lowerSum, List.toFinset_cons]
    rw [Finset.sum_insert hxf]
    have hrow : ∀ a ∈ xs.toFinset,
        (∑ b ∈ insert x xs.toFinset, d a b) = d a x + ∑ b ∈ xs.toFinset, d a b := by
      intro a _
      rw [Finset.sum_insert hxf]
    rw [Finset.sum_congr rfl hrow, Finset.sum_insert hxf, Finset.sum_add_distrib]
    have hdx : d x x = 0 := hdiag x (List.mem_cons_self _ _)
    have hsymx : (∑ b ∈ xs.toFinset, d x b) = ∑ b ∈ xs.toFinset, d b x := by
      refine Finset.sum_congr rfl ?_
      intro b hb
      exact hsym x (List.mem_cons_self _ _) b (List.mem_cons_of_mem _ (List.mem_toFinset.mp hb))
    have hlist : (∑ b ∈ xs.toFinset, d b x) = (xs.map (fun b => d b x)).sum :=
      List.sum_toFinset _ hxs
    rw [ih hxs
        (fun i hi j hj => hsym i (List.mem_cons_of_mem _ hi) j (List.mem_cons_of_mem _ hj))
        (fun i hi => hdiag i (List.mem_cons_of_mem _ hi))] at *
    rw [hdx, hsymx, hlist]
    ring

/-- The index of an id of the matrix is in range. -/
theorem idIndex_lt (dm : DistanceMatrix) {x : String} (hx : x ∈ dm.ids) :
    idIndex dm x < dm.n :=
  List.indexOf_lt_length.mpr hx

/-- The objective is invariant under permutations of the id sequence, for a
symmetric matrix. -/
theorem distance_sum_perm (dm : DistanceMatrix)
    (hsym : ∀ i < dm.n, ∀ j < dm.n, dm.d i j = dm.d j i)
    {e1 e2 : List String} (hsub : ∀ x ∈ e1, x ∈ dm.ids) (h : e1.Perm e2) :
    distance_sum e1 dm = distance_sum e2 dm := by
  refine trilSum_perm dm.d (h.map (idIndex dm)) ?_
  intro i hi j hj
  rcases List.mem_map.mp hi with ⟨a, ha, rfl⟩
  rcases List.mem_map.mp hj with ⟨b, hb, rfl⟩
  exact hsym _ (idIndex_lt dm (hsub a ha)) _ (idIndex_lt dm (hsub b hb))

/-- Over a zero-diagonal matrix, the lower triangle summed by `np.tril` equals the
strict lower triangle. -/
theorem distance_sum_eq_lowerSum (dm : DistanceMatrix)
    (hdiag : ∀ i < dm.n, dm.d i i = 0)
    {elements : List String} (hsub : ∀ x ∈ elements, x ∈ dm.ids) :
    distance_sum elements dm = lowerSum dm.d (elements.map (idIndex dm)) := by
  rw [distance_sum, trilSum_eq_diag_add_lower]
  have hz : (List.map (fun x => dm.d x x) (elements.map (idIndex dm))).sum = 0 := by
    rw [List.map_map]
    refine List.sum_eq_zero ?_
    intro y hy
    rcases List.mem_map.mp hy with ⟨a, ha, rfl⟩
    exact hdiag _ (idIndex_lt dm (hsub a ha))
  rw [hz, zero_add]

/-- Appending further ids can only grow the objective of a non-negative matrix. -/
theorem distance_sum_le_append (dm : DistanceMatrix)
    (hnn : ∀ i < dm.n, ∀ j < dm.n, 0 ≤ dm.d i j)
    {s t : List String} (hs : ∀ x ∈ s, x ∈ dm.ids) (ht : ∀ x ∈ t, x ∈ dm.ids) :
    distance_sum s dm ≤ distance_sum (s ++ t) dm := by
  rw [distance_sum, distance_sum, List.map_append, trilSum_append]
  have h1 : 0 ≤ ((t.map (idIndex dm)).map
      (fun y => ((s.map (idIndex dm)).map (fun x => dm.d y x)).sum)).sum := by
    refine sum_map_nonneg ?_
    intro y hy
    rcases List.mem_map.mp hy with ⟨a, ha, rfl⟩
    refine sum_map_nonneg ?_
    intro x hx
    rcases List.mem_map.mp hx with ⟨b, hb, rfl⟩
    exact hnn _ (idIndex_lt dm (ht a ha)) _ (idIndex_lt dm (hs b hb))
  have h2 : 0 ≤ trilSum dm.d (t.map (idIndex dm)) := by
    refine trilSum_nonneg dm.d _ ?_
    intro i hi j hj
    rcases List.mem_map.mp hi with ⟨a, ha, rfl⟩
    rcases List.mem_map.mp hj with ⟨b, hb, rfl⟩
    exact hnn _ (idIndex_lt dm (ht a ha)) _ (idIndex_lt dm (ht b hb))
  linarith

/-- Running the maximum search from a valued accumulator: the answer is the
accumulator or the first strict improvement, it dominates every candidate, and its
value is the objective of the answer. -/
theorem exhFold_some (dm : DistanceMatrix) :
    ∀ (order : List (List String)) (m0 : ℚ) (s0 : List String), m0 = distance_sum s0 dm →
    ∃ m s, order.foldl (exhStep dm) (some (m0, s0)) = some (m, s) ∧
      m = distance_sum s dm ∧ m0 ≤ m ∧ (∀ t ∈ order, distance_sum t dm ≤ m) ∧
      (s = s0 ∨ ∃ pre post, order = pre ++ s :: post ∧ m0 < m ∧
        ∀ t ∈ pre, distance_sum t dm < m) := by
  intro order
  induction order with
  | nil =>
    intro m0 s0 h
    exact ⟨m0, s0, rfl, h, le_refl _, by simp, Or.inl rfl⟩
  | cons t rest ih =>
    intro m0 s0 h
    simp only [List.foldl_cons, exhStep]
    by_cases hc : m0 < distance_sum t dm
    · rw [if_pos hc]
      obtain ⟨m, s, heq, hms, hle, hall, hcase⟩ := ih (distance_sum t dm) t rfl
      refine ⟨m, s, heq, hms, le_trans (le_of_lt hc) hle, ?_, ?_⟩
      · intro u hu
        rcases List.mem_cons.mp hu with rfl | hu
        · exact hle
        · exact hall u hu
      · rcases hcase with rfl | ⟨pre, post, rfl, hlt, hpre⟩
        · exact Or.inr ⟨[], rest, rfl, lt_of_lt_of_le hc hle, by simp⟩
        · refine Or.inr ⟨t :: pre, post, rfl, lt_trans hc hlt, ?_⟩
          intro u hu
          rcases List.mem_cons.mp hu with rfl | hu
          · exact lt_of_le_of_lt (le_refl _) hlt
          · exact hpre u hu
    · rw [if_neg hc]
      obtain ⟨m, s, heq, hms, hle, hall, hcase⟩ := ih m0 s0 h
      refine ⟨m, s, heq, hms, hle, ?_, ?_⟩
      · intro u hu
        rcases List.mem_cons.mp hu with rfl | hu
        · exact le_trans (le_of_not_lt hc) hle
        · exact hall u hu
      · rcases hcase with rfl | ⟨pre, post, rfl, hlt, hpre⟩
        · exact Or.inl rfl
        · refine Or.inr ⟨t :: pre, post, rfl, hlt, ?_⟩
          intro u hu
          rcases List.mem_cons.mp hu with rfl | hu
          · exact lt_of_le_of_lt (le_of_not_lt hc) hlt
          · exact hpre u hu

/-- On a nonempty iteration order, the maximum search of the exhaustive selector
answers the first candidate attaining the maximal objective. -/
theorem exhFold_first_max (dm : DistanceMatrix) :
    ∀ (order : List (List String)), order ≠ [] →
    ∃ pre l post, order = pre ++ l :: post ∧
      order.foldl (exhStep dm) none = some (distance_sum l dm, l) ∧
      (∀ t ∈ pre, distance_sum t dm < distance_sum l dm) ∧
      (∀ t ∈ order, distance_sum t dm ≤ distance_sum l dm) := by
  intro order hne
  cases order with
  | nil => exact absurd rfl hne
  | cons t rest =>
    have hstep : (t :: rest).foldl (exhStep dm) none =
        rest.foldl (exhStep dm) (some (distance_sum t dm, t)) := by
      simp [exhStep]
    obtain ⟨m, s, heq, hms, hle, hall, hcase⟩ := exhFold_some dm rest (distance_sum t dm) t rfl
    rcases hcase with rfl | ⟨pre, post, rfl, hlt, hpre⟩
    · refine ⟨[], s, rest, rfl, ?_, by simp, ?_⟩
      · rw [hstep, heq, hms]
      · intro u hu
        rcases List.mem_cons.mp hu with rfl | hu
        · exact hms ▸ hle
        · exact hms ▸ hall u hu
    · refine ⟨t :: pre, s, post, rfl, ?_, ?_, ?_⟩
      · rw [hstep, heq, hms]
      · intro u hu
        rcases List.mem_cons.mp hu with rfl | hu
        · exact hms ▸ hlt
        · exact hms ▸ hpre u hu
      · intro u hu
        rcases List.mem_cons.mp hu with rfl | hu
        · exact hms ▸ hle
        · exact hms ▸ hall u hu

/-- A duplicate-free list of indices below `n` that is shorter than `n` misses
some index below `n`. -/
theorem exists_not_mem_of_length_lt {l : List ℕ} {n : ℕ} (hnd : l.Nodup)
    (hlt : ∀ j ∈ l, j < n) (hlen : l.length < n) : ∃ j, j < n ∧ j ∉ l := by
  by_contra hcon
  push_neg at hcon
  have hsub : List.range n ⊆ l := by
    intro j hj
    exact hcon j (List.mem_range.mp hj)
  have := List.Subperm.length_le (List.subperm_of_subset (List.nodup_range n) hsub)
  simp only [List.length_range] at this
  omega

/-- Basic invariant of the greedy loop: indices stay in range, the uncovered flags
track exactly the membership in the discovery list, the discovery list only grows,
and each iteration appends exactly one index. -/
theorem maxdistLoop_basic (d : ℕ → ℕ → ℚ) (n : ℕ) (hn : 0 < n) :
    ∀ (s : ℕ) (st : List ℕ × (ℕ → Bool)),
      (∀ j ∈ st.1, j < n) → (∀ j, st.2 j = false ↔ j ∈ st.1) →
      (∀ j ∈ (maxdistLoop d n s st).1, j < n) ∧
      (∀ j, (maxdistLoop d n s st).2 j = false ↔ j ∈ (maxdistLoop d n s st).1) ∧
      st.1 ⊆ (maxdistLoop d n s st).1 ∧
      (maxdistLoop d n s st).1.length = st.1.length + s := by
  intro s
  induction s with
  | zero =>
    intro st h1 h2
    exact ⟨h1, h2, fun a ha => ha, rfl⟩
  | succ s ih =>
    intro st h1 h2
    have hm : np_argmax
        (fun j => (st.1.map (fun r => d r j)).sum * (if st.2 j then 1 else 0)) n < n :=
      np_argmax_lt _ n hn
    have hstep1 : ∀ j ∈ (maxdistStep d n st).1, j < n := by
      intro j hj
      rcases List.mem_append.mp hj with hj | hj
      · exact h1 j hj
      · rcases List.mem_singleton.mp hj with rfl
        exact hm
    have hstep2 : ∀ j, (maxdistStep d n st).2 j = false ↔ j ∈ (maxdistStep d n st).1 := by
      intro j
      simp only [maxdistStep, List.mem_append, List.mem_singleton]
      constructor
      · intro hj
        by_cases hjm : j = np_argmax
            (fun j => (st.1.map (fun r => d r j)).sum * (if st.2 j then 1 else 0)) n
        · exact Or.inr hjm
        · rw [if_neg hjm] at hj
          exact Or.inl ((h2 j).mp hj)
      · intro hj
        by_cases hjm : j = np_argmax
            (fun j => (st.1.map (fun r => d r j)).sum * (if st.2 j then 1 else 0)) n
        · rw [if_pos hjm]
        · rw [if_neg hjm]
          rcases hj with hj | hj
          · exact (h2 j).mpr hj
          · exact absurd hj hjm
    have hrec := ih (maxdistStep d n st) hstep1 hstep2
    simp only [maxdistLoop]
    refine ⟨hrec.1, hrec.2.1, ?_, ?_⟩
    · intro a ha
      exact hrec.2.2.1 (by simp [maxdistStep, List.mem_append]; exact Or.inl ha)
    · rw [hrec.2.2.2]
      simp [maxdistStep]
      omega

/-- Under strictly positive off-diagonal distances, the greedy loop appends a
fresh index each iteration: the discovery list stays duplicate-free. -/
theorem maxdistLoop_nodup (d : ℕ → ℕ → ℚ) (n : ℕ) (hn : 0 < n)
    (hpos : ∀ i < n, ∀ j < n, i ≠ j → 0 < d i j) :
    ∀ (s : ℕ) (st : List ℕ × (ℕ → Bool)),
      (∀ j ∈ st.1, j < n) → (∀ j, st.2 j = false ↔ j ∈ st.1) →
      st.1 ≠ [] → st.1.Nodup → st.1.length + s ≤ n - 1 →
      (maxdistLoop d n s st).1.Nodup := by
  intro s
  induction s with
  | zero =>
    intro st _ _ _ hnd _
    exact hnd
  | succ s ih =>
    intro st h1 h2 hne hnd hlen
    have hnlt : st.1.length < n := by omega
    obtain ⟨j0, hj0n, hj0⟩ := exists_not_mem_of_length_lt hnd h1 hnlt
    set masked : ℕ → ℚ :=
      fun j => (st.1.map (fun r => d r j)).sum * (if st.2 j then 1 else 0) with hmasked
    have hposj0 : 0 < masked j0 := by
      have hflag : st.2 j0 = true := by
        by_contra hfl
        exact hj0 ((h2 j0).mp (by simpa using hfl))
      have hsum : 0 < (st.1.map (fun r => d r j0)).sum := by
        refine List.sum_pos _ ?_ (by simpa using hne)
        intro x hx
        rcases List.mem_map.mp hx with ⟨r, hr, rfl⟩
        exact hpos r (h1 r hr) j0 hj0n (fun hrj => hj0 (hrj ▸ hr))
      simp [hmasked, hflag, hsum]
    have hmge : masked j0 ≤ masked (np_argmax masked n) := np_argmax_ge masked n j0 hj0n
    have hflagm : st.2 (np_argmax masked n) = true := by
      by_contra hfl
      have hfl' : st.2 (np_argmax masked n) = false := by simpa using hfl
      have hz : masked (np_argmax masked n) =
          (st.1.map (fun r => d r (np_argmax masked n))).sum *
            (if st.2 (np_argmax masked n) = true then 1 else 0) := rfl
      rw [hfl'] at hz
      simp only [if_neg Bool.false_ne_true, mul_zero] at hz
      rw [hz] at hmge
      linarith
    have hmnot : np_argmax masked n ∉ st.1 := by
      intro hmem
      have := (h2 _).mpr hmem
      rw [hflagm] at this
      exact Bool.true_eq_false.mp this
    have hm : np_argmax masked n < n := np_argmax_lt _ n hn
    have hstep1 : ∀ j ∈ (maxdistStep d n st).1, j < n := by
      intro j hj
      rcases List.mem_append.mp hj with hj | hj
      · exact h1 j hj
      · rcases List.mem_singleton.mp hj with rfl
        exact hm
    have hstep2 : ∀ j, (maxdistStep d n st).2 j = false ↔ j ∈ (maxdistStep d n st).1 := by
      intro j
      simp only [maxdistStep, List.mem_append, List.mem_singleton]
      constructor
      · intro hj
        by_cases hjm : j = np_argmax masked n
        · exact Or.inr hjm
        · rw [if_neg hjm] at hj
          exact Or.inl ((h2 j).mp hj)
      · intro hj
        by_cases hjm : j = np_argmax masked n
        · rw [if_pos hjm]
        · rw [if_neg hjm]
          rcases hj with hj | hj
          · exact (h2 j).mpr hj
          · exact absurd hj hjm
    have hstepnd : (maxdistStep d n st).1.Nodup := by
      refine List.Nodup.append hnd (List.nodup_singleton _) ?_
      intro a ha hb
      rcases List.mem_singleton.mp hb with rfl
      exact hmnot ha
    have hstepne : (maxdistStep d n st).1 ≠ [] := by
      simp [maxdistStep]
    have hsteplen : (maxdistStep d n st).1.length + s ≤ n - 1 := by
      simp only [maxdistStep, List.length_append, List.length_singleton]
      omega
    exact ih (maxdistStep d n st) hstep1 hstep2 hstepne hstepnd hsteplen

/-- The output of reading ids off an index filter is a subsequence of the id
sequence: it lists its entries in ascending matrix-index order. -/
theorem filter_range_map_getD_sublist :
    ∀ (l : List String) (p : ℕ → Bool),
      ((((List.range l.length).filter p).map (fun j => l.getD j ""))).Sublist l := by
  intro l
  induction l with
  | nil =>
    intro p
    simp
  | cons a l ih =>
    intro p
    rw [List.length_cons, List.range_succ_eq_map, List.filter_cons]
    cases hp : p 0
    · rw [if_neg (by simp [hp])]
      rw [List.filter_map, List.map_map]
      have hmap : ((fun j => (a :: l).getD j "") ∘ Nat.succ) = fun j => l.getD j "" := by
        funext j
        simp [List.getD_cons_succ]
      rw [hmap]
      exact (ih (p ∘ Nat.succ)).cons a
    · rw [if_pos (by simp [hp])]
      rw [List.map_cons, List.filter_map, List.map_map]
      have hmap : ((fun j => (a :: l).getD j "") ∘ Nat.succ) = fun j => l.getD j "" := by
        funext j
        simp [List.getD_cons_succ]
      rw [hmap]
      simp only [List.getD_cons_zero]
      exact List.Sublist.cons₂ a (ih (p ∘ Nat.succ))

/-- Reading distinct indices off a duplicate-free id list yields distinct ids. -/
theorem nodup_filter_range_map {l : List String} (hnd : l.Nodup) (p : ℕ → Bool) :
    ((((List.range l.length).filter p).map (fun j => l.getD j ""))).Nodup := by
  refine List.Nodup.map_on ?_ ((List.nodup_range l.length).filter p)
  intro a ha b hb hab
  have ha' : a < l.length := List.mem_range.mp (List.mem_of_mem_filter ha)
  have hb' : b < l.length := List.mem_range.mp (List.mem_of_mem_filter hb)
  rw [List.getD_eq_getElem l "" ha', List.getD_eq_getElem l "" hb'] at hab
  exact hnd.getElem_inj_iff.mp hab

/-- Filtering the index range by membership in a duplicate-free in-range list
gives a permutation of that list. -/
theorem filter_range_mem_perm {rs : List ℕ} {n : ℕ} (hnd : rs.Nodup)
    (hlt : ∀ j ∈ rs, j < n) :
    ((List.range n).filter (fun j => decide (j ∈ rs))).Perm rs := by
  refine (List.perm_ext_iff_of_nodup ((List.nodup_range n).filter _) hnd).mpr ?_
  intro a
  simp only [List.mem_filter, List.mem_range, decide_eq_true_eq]
  exact ⟨fun h => h.2, fun h => ⟨hlt a h, h⟩⟩

/-- The two seed indices are in range. -/
theorem maxdistSeed_lt (dm : DistanceMatrix) (hn : 0 < dm.n) :
    (maxdistSeed dm).1 < dm.n ∧ (maxdistSeed dm).2 < dm.n := by
  have h : np_argmax (fun f => dm.d (f / dm.n) (f % dm.n)) (dm.n * dm.n) < dm.n * dm.n :=
    np_argmax_lt _ _ (Nat.mul_pos hn hn)
  constructor
  · simp only [maxdistSeed]
    exact Nat.div_lt_of_lt_mul h
  · simp only [maxdistSeed]
    exact Nat.mod_lt _ hn

/-- The seed flags mark exactly the seed pair as covered. -/
theorem maxdistInit_flags (dm : DistanceMatrix) :
    ∀ j, (maxdistInit dm).2 j = false ↔ j ∈ (maxdistInit dm).1 := by
  intro j
  simp only [maxdistInit, Bool.not_eq_false', Bool.or_eq_true, beq_iff_eq,
    List.mem_cons, List.mem_singleton]
  tauto

/-- Under strictly positive off-diagonal distances, the globally maximal entry is
off the diagonal, so the two seed indices differ. -/
theorem maxdistSeed_ne (dm : DistanceMatrix)
    (hdiag : ∀ i < dm.n, dm.d i i = 0)
    (hpos : ∀ i < dm.n, ∀ j < dm.n, i ≠ j → 0 < dm.d i j)
    (hn : 2 ≤ dm.n) : (maxdistSeed dm).1 ≠ (maxdistSeed dm).2 := by
  have h1n : 1 < dm.n * dm.n := by nlinarith
  have hge : dm.d (1 / dm.n) (1 % dm.n) ≤
      dm.d (np_argmax (fun f => dm.d (f / dm.n) (f % dm.n)) (dm.n * dm.n) / dm.n)
        (np_argmax (fun f => dm.d (f / dm.n) (f % dm.n)) (dm.n * dm.n) % dm.n) :=
    np_argmax_ge (fun f => dm.d (f / dm.n) (f % dm.n)) (dm.n * dm.n) 1 h1n
  have h1div : 1 / dm.n = 0 := Nat.div_eq_of_lt (by omega)
  have h1mod : 1 % dm.n = 1 := Nat.mod_eq_of_lt (by omega)
  rw [h1div, h1mod] at hge
  have hd01 : 0 < dm.d 0 1 := hpos 0 (by omega) 1 (by omega) (by omega)
  intro heq
  have hlt := maxdistSeed_lt dm (by omega)
  have hzero : dm.d (maxdistSeed dm).1 (maxdistSeed dm).2 = 0 := by
    rw [← heq]
    exact hdiag _ hlt.1
  have : dm.d (maxdistSeed dm).1 (maxdistSeed dm).2 =
      dm.d (np_argmax (fun f => dm.d (f / dm.n) (f % dm.n)) (dm.n * dm.n) / dm.n)
        (np_argmax (fun f => dm.d (f / dm.n) (f % dm.n)) (dm.n * dm.n) % dm.n) := rfl
  rw [this] at hzero
  rw [hzero] at hge
  linarith

/-- Under valid arguments the greedy selector returns normally, and the returned
id list is read off the final uncovered flags. -/
theorem maxdist_ok (dm : DistanceMatrix) (k : ℕ) (h2 : 2 ≤ k) (hk : k < dm.n) :
    prototype_selection_constructive_maxdist dm k =
      .ok (((List.range dm.n).filter (fun j => !((maxdistState dm k).2 j))).map
        (fun j => dm.ids.getD j "")) := by
  rw [prototype_selection_constructive_maxdist, if_neg (by omega), if_neg (by omega)]

/-- The final greedy state: in-range indices, flags tracking membership, seed pair
still present, and exactly `k` discovery entries. -/
theorem maxdistState_inv (dm : DistanceMatrix) (k : ℕ) (h2 : 2 ≤ k) (hk : k < dm.n) :
    (∀ j ∈ (maxdistState dm k).1, j < dm.n) ∧
    (∀ j, (maxdistState dm k).2 j = false ↔ j ∈ (maxdistState dm k).1) ∧
    (maxdistState dm k).1.length = k := by
  have hn : 0 < dm.n := by omega
  have hlt := maxdistSeed_lt dm hn
  have hinit1 : ∀ j ∈ (maxdistInit dm).1, j < dm.n := by
    intro j hj
    rcases List.mem_cons.mp hj with rfl | hj
    · exact hlt.1
    · rcases List.mem_singleton.mp hj with rfl
      exact hlt.2
  have h := maxdistLoop_basic dm.d dm.n hn (k - 2) (maxdistInit dm) hinit1
    (maxdistInit_flags dm)
  refine ⟨h.1, h.2.1, ?_⟩
  have hlen2 : (maxdistInit dm).1.length = 2 := rfl
  have := h.2.2.2
  rw [maxdistState]
  omega

/-- General characterization of the greedy output: it returns normally, the id
list is a subsequence of the id sequence whose members are exactly the ids of the
discovered prototype indices, it never exceeds `k` entries, and it is
duplicate-free when the ids are. -/
theorem maxdist_output (dm : DistanceMatrix) (k : ℕ) (h2 : 2 ≤ k) (hk : k < dm.n) :
    ∃ l, prototype_selection_constructive_maxdist dm k = .ok l ∧
      l.Sublist dm.ids ∧
      (∀ x, x ∈ l ↔ ∃ j ∈ (maxdistState dm k).1, dm.ids.getD j "" = x) ∧
      l.length ≤ k ∧
      (dm.ids.Nodup → l.Nodup) := by
  obtain ⟨hin, hflags, hlen⟩ := maxdistState_inv dm k h2 hk
  refine ⟨_, maxdist_ok dm k h2 hk, ?_, ?_, ?_, ?_⟩
  · have := filter_range_map_getD_sublist dm.ids (fun j => !((maxdistState dm k).2 j))
    exact this
  · intro x
    constructor
    · intro hx
      rcases List.mem_map.mp hx with ⟨j, hj, rfl⟩
      have hjp : (!((maxdistState dm k).2 j)) = true := (List.mem_filter.mp hj).2
      have : (maxdistState dm k).2 j = false := by simpa using hjp
      exact ⟨j, (hflags j).mp this, rfl⟩
    · rintro ⟨j, hj, rfl⟩
      refine List.mem_map.mpr ⟨j, ?_, rfl⟩
      refine List.mem_filter.mpr ⟨List.mem_range.mpr (hin j hj), ?_⟩
      simp [(hflags j).mpr hj]
  · have hcongr : (List.range dm.n).filter (fun j => !((maxdistState dm k).2 j)) =
        (List.range dm.n).filter (fun j => decide (j ∈ (maxdistState dm k).1)) := by
      refine List.filter_congr ?_
      intro j _
      by_cases hj : (maxdistState dm k).2 j
      · have : j ∉ (maxdistState dm k).1 := by
          intro hmem
          rw [(hflags j).mpr hmem] at hj
          exact Bool.false_ne_true hj
        simp [hj, this]
      · have hj' : (maxdistState dm k).2 j = false := by simpa using hj
        have : j ∈ (maxdistState dm k).1 := (hflags j).mp hj'
        simp [hj', this]
    rw [List.length_map, hcongr]
    have hsub : (List.range dm.n).filter (fun j => decide (j ∈ (maxdistState dm k).1)) ⊆
        (maxdistState dm k).1 := by
      intro a ha
      have := List.of_mem_filter ha
      simpa using this
    have hnd : ((List.range dm.n).filter
        (fun j => decide (j ∈ (maxdistState dm k).1))).Nodup :=
      (List.nodup_range dm.n).filter _
    have := List.Subperm.length_le (List.subperm_of_subset hnd hsub)
    omega
  · intro hids
    exact nodup_filter_range_map hids _

/-- Under strictly positive off-diagonal distances the greedy selector returns
exactly `k` distinct ids of the matrix. -/
theorem maxdist_exact (dm : DistanceMatrix) (k : ℕ)
    (hdiag : ∀ i < dm.n, dm.d i i = 0)
    (hpos : ∀ i < dm.n, ∀ j < dm.n, i ≠ j → 0 < dm.d i j)
    (h2 : 2 ≤ k) (hk : k < dm.n) :
    ∃ l, prototype_selection_constructive_maxdist dm k = .ok l ∧
      l.length = k ∧ (dm.ids.Nodup → l.Nodup) ∧ l ⊆ dm.ids := by
  have hn : 0 < dm.n := by omega
  have hlt := maxdistSeed_lt dm hn
  have hne := maxdistSeed_ne dm hdiag hpos (by omega)
  have hinit1 : ∀ j ∈ (maxdistInit dm).1, j < dm.n := by
    intro j hj
    rcases List.mem_cons.mp hj with rfl | hj
    · exact hlt.1
    · rcases List.mem_singleton.mp hj with rfl
      exact hlt.2
  have hinitnd : (maxdistInit dm).1.Nodup := by
    simp [maxdistInit, hne]
  have hrsnd : (maxdistState dm k).1.Nodup := by
    rw [maxdistState]
    refine maxdistLoop_nodup dm.d dm.n hn hpos (k - 2) (maxdistInit dm) hinit1
      (maxdistInit_flags dm) (by simp [maxdistInit]) hinitnd ?_
    have : (maxdistInit dm).1.length = 2 := rfl
    omega
  obtain ⟨hin, hflags, hlen⟩ := maxdistState_inv dm k h2 hk
  obtain ⟨l, hok, hsub, hmem, hle, hnd⟩ := maxdist_output dm k h2 hk
  refine ⟨l, hok, ?_, hnd, hsub.subset⟩
  have hcongr : (List.range dm.n).filter (fun j => !((maxdistState dm k).2 j)) =
      (List.range dm.n).filter (fun j => decide (j ∈ (maxdistState dm k).1)) := by
    refine List.filter_congr ?_
    intro j _
    by_cases hj : (maxdistState dm k).2 j
    · have : j ∉ (maxdistState dm k).1 := by
        intro hmem'
        rw [(hflags j).mpr hmem'] at hj
        exact Bool.false_ne_true hj
      simp [hj, this]
    · have hj' : (maxdistState dm k).2 j = false := by simpa using hj
      have : j ∈ (maxdistState dm k).1 := (hflags j).mp hj'
      simp [hj', this]
  have hperm := filter_range_mem_perm hrsnd hin
  have hok' := maxdist_ok dm k h2 hk
  rw [hok'] at hok
  have hl : l = ((List.range dm.n).filter (fun j => !((maxdistState dm k).2 j))).map
      (fun j => dm.ids.getD j "") :=
    (Except.ok.inj hok).symm
  rw [hl, List.length_map, hcongr, hperm.length_eq, hlen]

/-- Started from the all-uncovered state, the coverage loop can only answer the
empty list or a single prototype: a second prototype-appending iteration always
runs into the broadcast error, because the covered list was extended to length
`2 n` by the first one. -/
theorem protoLoop_init_ok_len (B : ℕ → ℕ → Bool) (n : ℕ) :
    ∀ (fuel : ℕ) (l : List ℕ),
      protoLoop B n fuel (List.replicate n false) (protoInitScores B n) [] =
        some (.ok l) → l.length ≤ 1 := by
  intro fuel l h
  match fuel with
  | 0 => simp [protoLoop] at h
  | fuel + 1 =>
    rw [protoLoop] at h
    by_cases hn : n = 0
    · rw [if_pos hn] at h
      simp at h
    · rw [if_neg hn] at h
      by_cases hs : 0 < protoInitScores B n (np_argmax (protoInitScores B n) n)
      · rw [if_pos hs, if_pos (List.length_replicate n false)] at h
        match fuel with
        | 0 => simp [protoLoop] at h
        | fuel + 1 =>
          rw [protoLoop] at h
          rw [if_neg hn] at h
          by_cases hs2 : 0 < (protoNext B n (List.replicate n false)
              (protoInitScores B n) []).2.1 (np_argmax ((protoNext B n
                (List.replicate n false) (protoInitScores B n) []).2.1) n)
          · rw [if_pos hs2] at h
            have hlen : (protoNext B n (List.replicate n false)
                (protoInitScores B n) []).1.length ≠ n := by
              simp only [protoNext, List.length_append, List.length_replicate,
                List.length_map, List.length_range]
              omega
            rw [if_neg hlen] at h
            simp at h
          · rw [if_neg hs2] at h
            have : (protoNext B n (List.replicate n false)
                (protoInitScores B n) []).2.2 = l := by
              have := Option.some.inj h
              exact Except.ok.inj this
            rw [← this]
            simp [protoNext]
      · rw [if_neg hs] at h
        have : ([] : List ℕ) = l := Except.ok.inj (Option.some.inj h)
        rw [← this]
        simp

/-- The coverage loop raises only the numpy errors: empty-argmax or broadcast. -/
theorem protoLoop_error_kinds (B : ℕ → ℕ → Bool) (n : ℕ) :
    ∀ (fuel : ℕ) (covered : List Bool) (scores : ℕ → ℤ) (prototypes : List ℕ)
      (e : SelectionError),
      protoLoop B n fuel covered scores prototypes = some (.error e) →
      e = .EmptyArgmax ∨ e = .BroadcastError := by
  intro fuel
  induction fuel with
  | zero =>
    intro covered scores prototypes e h
    simp [protoLoop] at h
  | succ fuel ih =>
    intro covered scores prototypes e h
    rw [protoLoop] at h
    by_cases hn : n = 0
    · rw [if_pos hn] at h
      have := Option.some.inj h
      exact Or.inl (Except.error.inj this).symm
    · rw [if_neg hn] at h
      by_cases hs : 0 < scores (np_argmax scores n)
      · rw [if_pos hs] at h
        by_cases hc : covered.length = n
        · rw [if_pos hc] at h
          exact ih _ _ _ e h
        · rw [if_neg hc] at h
          have := Option.some.inj h
          exact Or.inr (Except.error.inj this).symm
      · rw [if_neg hs] at h
        simp at h

/-- The coverage step `_protoclass` can only answer the empty list or a single id. -/
theorem protoclass_ok_len (dm : DistanceMatrix) (epsilon : ℚ) (fuel : ℕ)
    (l : List String) : protoclass dm epsilon fuel = some (.ok l) → l.length ≤ 1 := by
  intro h
  rw [protoclass] at h
  cases hres : protoLoop (ballMatrix dm epsilon) dm.n fuel (List.replicate dm.n false)
      (protoInitScores (ballMatrix dm epsilon) dm.n) [] with
  | none => rw [hres] at h; simp at h
  | some r =>
    rw [hres] at h
    cases r with
    | error e => simp [Except.map] at h
    | ok ps =>
      simp only [Option.map_some', Except.map] at h
      have hmap : ps.map (fun i => dm.ids.getD i "") = l :=
        Except.ok.inj (Option.some.inj h)
      rw [← hmap, List.length_map]
      exact protoLoop_init_ok_len _ _ fuel ps hres

/-- The coverage step raises only the numpy errors. -/
theorem protoclass_error_kinds (dm : DistanceMatrix) (epsilon : ℚ) (fuel : ℕ)
    (e : SelectionError) : protoclass dm epsilon fuel = some (.error e) →
    e = .EmptyArgmax ∨ e = .BroadcastError := by
  intro h
  rw [protoclass] at h
  cases hres : protoLoop (ballMatrix dm epsilon) dm.n fuel (List.replicate dm.n false)
      (protoInitScores (ballMatrix dm epsilon) dm.n) [] with
  | none => rw [hres] at h; simp at h
  | some r =>
    rw [hres] at h
    cases r with
    | ok ps => simp [Except.map] at h
    | error e' =>
      simp only [Option.map_some', Except.map] at h
      have : e' = e := Except.error.inj (Option.some.inj h)
      rw [← this]
      exact protoLoop_error_kinds _ _ fuel _ _ _ e' hres

/-- The search loop of the wrapper can never exit successfully when at least two
prototypes are requested: every coverage run yields at most one prototype, so the
break and the truncating return are unreachable. -/
theorem protoclassLoop_no_ok (dm : DistanceMatrix) (k fuel : ℕ) (hk : 2 ≤ k) :
    ∀ (steps : ℕ) (epsilon stepSize direction : ℚ) (prototypes : List String),
      prototypes.length < k → ∀ l,
      protoclassLoop dm k fuel steps epsilon stepSize direction prototypes ≠
        some (.ok l) := by
  intro steps
  induction steps with
  | zero =>
    intro epsilon stepSize direction protos hlen l h
    rw [protoclassLoop, protoPost, if_pos hlen] at h
    simp at h
  | succ steps ih =>
    intro epsilon stepSize direction protos hlen l h
    rw [protoclassLoop] at h
    cases hres : protoclass dm epsilon fuel with
    | none => rw [hres] at h; simp at h
    | some r =>
      rw [hres] at h
      cases r with
      | error e => simp at h
      | ok ps =>
        have hps : ps.length ≤ 1 := protoclass_ok_len dm epsilon fuel ps hres
        have hbreak : ps.length ≠ k := by omega
        simp only [if_neg hbreak] at h
        exact ih _ _ _ ps (by omega) l h

/-- The wrapper loop fails only with a numpy error from the coverage step or with
the convergence failure of the post-loop code. -/
theorem protoclassLoop_error_kinds (dm : DistanceMatrix) (k fuel : ℕ) :
    ∀ (steps : ℕ) (epsilon stepSize direction : ℚ) (prototypes : List String)
      (e : SelectionError),
      protoclassLoop dm k fuel steps epsilon stepSize direction prototypes =
        some (.error e) →
      e = .EmptyArgmax ∨ e = .BroadcastError ∨ e = .ConvergenceFailure := by
  intro steps
  induction steps with
  | zero =>
    intro epsilon stepSize direction protos e h
    rw [protoclassLoop, protoPost] at h
    by_cases hlen : protos.length < k
    · rw [if_pos hlen] at h
      have := Except.error.inj (Option.some.inj h)
      exact Or.inr (Or.inr this.symm)
    · rw [if_neg hlen] at h
      simp at h
  | succ steps ih =>
    intro epsilon stepSize direction protos e h
    rw [protoclassLoop] at h
    cases hres : protoclass dm epsilon fuel with
    | none => rw [hres] at h; simp at h
    | some r =>
      rw [hres] at h
      cases r with
      | error e' =>
        simp only [] at h
        have : e' = e := Except.error.inj (Option.some.inj h)
        rcases protoclass_error_kinds dm epsilon fuel e' hres with h' | h'
        · exact Or.inl (this ▸ h')
        · exact Or.inr (Or.inl (this ▸ h'))
      | ok ps =>
        by_cases hbreak : ps.length = k
        · simp only [if_pos hbreak, protoPost] at h
          by_cases hlen : ps.length < k
          · rw [if_pos hlen] at h
            have := Except.error.inj (Option.some.inj h)
            exact Or.inr (Or.inr this.symm)
          · rw [if_neg hlen] at h
            simp at h
        · simp only [if_neg hbreak] at h
          exact ih _ _ _ ps e h

/-- Reading any position of the all-false covered list gives false. -/
theorem getD_replicate_false : ∀ (n x : ℕ), (List.replicate n false).getD x false = false := by
  intro n
  induction n with
  | zero => intro x; simp
  | succ n ih =>
    intro x
    cases x with
    | zero => simp [List.replicate]
    | succ x => simpa [List.replicate] using ih x

/-- Counting with a predicate splits along any test. -/
theorem countP_split (l : List ℕ) (p q : ℕ → Bool) :
    l.countP p = l.countP (fun x => p x && q x) + l.countP (fun x => p x && !q x) := by
  induction l with
  | nil => simp
  | cons x xs ih =>
    cases hp : p x <;> cases hq : q x <;>
      simp [List.countP_cons, hp, hq, ih] <;> omega

/-- Counting respects pointwise equality of the predicate on the list. -/
theorem countP_congr_list (l : List ℕ) (p q : ℕ → Bool)
    (h : ∀ x ∈ l, p x = q x) : l.countP p = l.countP q := by
  induction l with
  | nil => simp
  | cons x xs ih =>
    have hx := h x (List.mem_cons_self _ _)
    simp [List.countP_cons, hx, ih (fun y hy => h y (List.mem_cons_of_mem _ hy))]

/-- Invariant of the coverage loop, proved for every reachable state: every score
is the number of currently uncovered elements inside the corresponding ball
(an element is covered exactly when it lies in the ball of a chosen prototype),
and, where the covered list still has its original length, its flags agree with
that notion of coverage. -/
theorem protoReach_inv (B : ℕ → ℕ → Bool) (n : ℕ) :
    ∀ (covered : List Bool) (scores : ℕ → ℤ) (prototypes : List ℕ),
      ProtoReach B n covered scores prototypes →
      (∀ j, j < n → scores j = ((List.range n).countP
          (fun i => B i j && !(prototypes.any (fun p => B i p))) : ℤ)) ∧
      (covered.length = n →
        ∀ x, x < n → covered.getD x false = prototypes.any (fun p => B x p)) := by
  intro covered scores prototypes h
  induction h with
  | init =>
    constructor
    · intro j _
      rw [protoInitScores]
      congr 1
      refine countP_congr_list _ _ _ ?_
      intro x _
      simp
    · intro _ x _
      rw [getD_replicate_false]
      simp
  | step covered scores prototypes hreach hn hs hc ih =>
    obtain ⟨ihs, ihc⟩ := ih
    have hcov : ∀ x, x < n →
        covered.getD x false = prototypes.any (fun p => B x p) := ihc hc
    constructor
    · intro j hj
      show scores j - ((List.range n).countP
          (fun x => (B x (np_argmax scores n) && !(covered.getD x false)) && B x j) : ℤ) = _
      rw [ihs j hj]
      have hsplit := countP_split (List.range n)
        (fun i => B i j && !(prototypes.any (fun p => B i p)))
        (fun i => B i (np_argmax scores n))
      have hsub : (List.range n).countP
          (fun x => (B x (np_argmax scores n) && !(covered.getD x false)) && B x j) =
          (List.range n).countP (fun i => (B i j &&
            !(prototypes.any (fun p => B i p))) && B i (np_argmax scores n)) := by
        refine countP_congr_list _ _ _ ?_
        intro x hx
        rw [hcov x (List.mem_range.mp hx)]
        cases B x (np_argmax scores n) <;>
          cases B x j <;>
          cases prototypes.any (fun p => B x p) <;> rfl
      have htgt : (List.range n).countP (fun i => B i j &&
          !((prototypes ++ [np_argmax scores n]).any (fun p => B i p))) =
          (List.range n).countP (fun i => (B i j &&
            !(prototypes.any (fun p => B i p))) && !(B i (np_argmax scores n))) := by
        refine countP_congr_list _ _ _ ?_
        intro x _
        simp only [List.any_append, List.any_cons, List.any_nil, Bool.or_false]
        cases B x (np_argmax scores n) <;>
          cases B x j <;>
          cases prototypes.any (fun p => B x p) <;> rfl
      have hp2 : (protoNext B n covered scores prototypes).2.2 =
          prototypes ++ [np_argmax scores n] := by
        simp [protoNext]
      rw [hp2, hsub, htgt]
      omega
    · intro hlen
      exfalso
      have : covered.length + n = n := by
        simpa [protoNext, List.length_append] using hlen
      omega

/-- If the very first score check fails, the coverage loop stops with no
prototypes. -/
theorem protoLoop_break_empty (B : ℕ → ℕ → Bool) (n : ℕ) (hn : n ≠ 0) (f : ℕ)
    (hz : ¬ 0 < protoInitScores B n (np_argmax (protoInitScores B n) n)) :
    protoLoop B n (f + 1) (List.replicate n false) (protoInitScores B n) [] =
      some (.ok []) := by
  simp only [protoLoop, if_neg hn, if_neg hz]

/-- If the first score check passes and the updated scores all fail the second
one, the coverage loop stops with exactly the first argmax as prototype. -/
theorem protoLoop_two_steps (B : ℕ → ℕ → Bool) (n : ℕ) (hn : n ≠ 0) (f : ℕ)
    (hpos : 0 < protoInitScores B n (np_argmax (protoInitScores B n) n))
    (hzero : ¬ 0 < (protoNext B n (List.replicate n false) (protoInitScores B n) []).2.1
        (np_argmax ((protoNext B n (List.replicate n false)
          (protoInitScores B n) []).2.1) n)) :
    protoLoop B n (f + 2) (List.replicate n false) (protoInitScores B n) [] =
      some (.ok [np_argmax (protoInitScores B n) n]) := by
  have hrl : (List.replicate n false).length = n := by simp
  show protoLoop B n (f + 1 + 1) _ _ _ = _
  simp only [protoLoop, if_neg hn, if_pos hpos, if_pos hrl, if_neg hzero]
  have : (protoNext B n (List.replicate n false) (protoInitScores B n) []).2.2 =
      [np_argmax (protoInitScores B n) n] := by
    simp [protoNext]
  rw [this]

/-- The epsilon-search wrapper can never return normally on a valid instance:
success would require a coverage run yielding at least two prototypes, which the
broadcast bug makes impossible. -/
theorem protoclass_wrapper_no_ok (dm : DistanceMatrix) (k steps fuel : ℕ)
    (h2 : 2 ≤ k) (hk : k < dm.n) :
    ∀ l, prototype_selection_constructive_protoclass dm k steps fuel ≠
      some (.ok l) := by
  intro l h
  rw [prototype_selection_constructive_protoclass, if_neg (by omega),
    if_neg (by omega)] at h
  exact protoclassLoop_no_ok dm k fuel h2 steps _ _ _ [] (by simp only [List.length_nil]; omega) l h

/-- Filtering a duplicate-free list by membership in a duplicate-free subset gives
a permutation of that subset. -/
theorem filter_mem_perm {ids s : List String} (hids : ids.Nodup) (hs : s.Nodup)
    (hsub : s ⊆ ids) : (ids.filter (fun x => decide (x ∈ s))).Perm s := by
  refine (List.perm_ext_iff_of_nodup (hids.filter _) hs).mpr ?_
  intro a
  simp only [List.mem_filter, decide_eq_true_eq]
  exact ⟨fun h => h.2, fun h => ⟨hsub h, h⟩⟩

/-- Any duplicate-free subset of the ids extends to a duplicate-free subset of any
requested size up to the number of ids. -/
theorem exists_extension {ids s : List String} (hids : ids.Nodup) (hs : s.Nodup)
    (hsub : s ⊆ ids) (k : ℕ) (hk1 : s.length ≤ k) (hk2 : k ≤ ids.length) :
    ∃ r, (s ++ r).Nodup ∧ (s ++ r) ⊆ ids ∧ (s ++ r).length = k ∧ ∀ x ∈ r, x ∈ ids := by
  refine ⟨(ids.filter (fun x => !(decide (x ∈ s)))).take (k - s.length), ?_, ?_, ?_, ?_⟩
  · refine List.Nodup.append hs
      (List.Nodup.sublist (List.take_sublist _ _) (hids.filter _)) ?_
    intro a ha har
    have hxf := (List.take_sublist _ _).subset har
    have := (List.mem_filter.mp hxf).2
    simp only [Bool.not_eq_true', decide_eq_false_iff_not] at this
    exact this ha
  · intro x hx
    rcases List.mem_append.mp hx with hx | hx
    · exact hsub hx
    · exact List.mem_of_mem_filter ((List.take_sublist _ _).subset hx)
  · have hflen : (ids.filter (fun x => decide (x ∈ s))).length = s.length :=
      (filter_mem_perm hids hs hsub).length_eq
    have htot : ids.length = (ids.filter (fun x => decide (x ∈ s))).length +
        (ids.filter (fun x => !(decide (x ∈ s)))).length :=
      List.length_eq_length_filter_add _
    rw [List.length_append, List.length_take]
    omega
  · intro x hx
    exact List.mem_of_mem_filter ((List.take_sublist _ _).subset hx)

/-- Under valid arguments, the exhaustive selector returns the first subset of the
iteration order attaining the maximal objective; that subset is one of the
lexicographic combinations. -/
theorem exhaustive_ok (dm : DistanceMatrix) (k mc : ℕ) (order : List (List String))
    (h2 : 2 ≤ k) (hk : k < dm.n) (hmc : Nat.choose dm.n k < mc)
    (hperm : order.Perm (combinations k dm.ids)) :
    ∃ pre l post, order = pre ++ l :: post ∧
      prototype_selection_exhaustive dm k mc order = .ok l ∧
      l ∈ combinations k dm.ids ∧
      (∀ t ∈ pre, distance_sum t dm < distance_sum l dm) ∧
      (∀ t ∈ order, distance_sum t dm ≤ distance_sum l dm) := by
  have hne : order ≠ [] := by
    intro h0
    subst h0
    exact combinations_ne_nil (le_of_lt hk) hperm.symm.eq_nil
  obtain ⟨pre, l, post, hsplit, hfold, hprelt, hall⟩ := exhFold_first_max dm order hne
  have hexh : prototype_selection_exhaustive dm k mc order = .ok l := by
    rw [prototype_selection_exhaustive, if_neg (by omega), if_neg (by omega),
      if_neg (by omega), hfold]
  have hmem : l ∈ order := by
    rw [hsplit]
    exact List.mem_append.mpr (Or.inr (List.mem_cons_self _ _))
  exact ⟨pre, l, post, hsplit, hexh, hperm.mem_iff.mp hmem, hprelt, hall⟩

/-- C6: each of the three selectors raises `InvalidPrototypeCount` exactly when
`k < 2` or `k ≥ n`, and never raises it for `2 ≤ k < n`; the validation is the
first thing each selector does, so an invalid count always yields exactly this
error and nothing else. -/
theorem claim6_validation (dm : DistanceMatrix) (k mc steps fuel : ℕ)
    (order : List (List String)) :
    (prototype_selection_exhaustive dm k mc order =
        .error .InvalidPrototypeCount ↔ (k < 2 ∨ dm.n ≤ k)) ∧
    (prototype_selection_constructive_maxdist dm k =
        .error .InvalidPrototypeCount ↔ (k < 2 ∨ dm.n ≤ k)) ∧
    (prototype_selection_constructive_protoclass dm k steps fuel =
        some (.error .InvalidPrototypeCount) ↔ (k < 2 ∨ dm.n ≤ k)) := by
  refine ⟨⟨?_, ?_⟩, ⟨?_, ?_⟩, ⟨?_, ?_⟩⟩
  · intro h
    by_contra hcon
    push_neg at hcon
    rw [prototype_selection_exhaustive, if_neg (by omega), if_neg (by omega)] at h
    by_cases hmc : mc ≤ Nat.choose dm.n k
    · rw [if_pos hmc] at h
      simp at h
    · rw [if_neg hmc] at h
      cases hfold : List.foldl (exhStep dm) none order with
      | none => rw [hfold] at h; simp at h
      | some p =>
        rw [hfold] at h
        cases p
        simp at h
  · intro h
    rw [prototype_selection_exhaustive]
    by_cases h2 : k < 2
    · rw [if_pos h2]
    · rw [if_neg h2, if_pos (by omega)]
  · intro h
    by_contra hcon
    push_neg at hcon
    rw [prototype_selection_constructive_maxdist, if_neg (by omega),
      if_neg (by omega)] at h
    simp at h
  · intro h
    rw [prototype_selection_constructive_maxdist]
    by_cases h2 : k < 2
    · rw [if_pos h2]
    · rw [if_neg h2, if_pos (by omega)]
  · intro h
    by_contra hcon
    push_neg at hcon
    rw [prototype_selection_constructive_protoclass, if_neg (by omega),
      if_neg (by omega)] at h
    rcases protoclassLoop_error_kinds dm k fuel steps _ _ _ _ _ h with h' | h' | h' <;>
      simp at h'
  · intro h
    rw [prototype_selection_constructive_protoclass]
    by_cases h2 : k < 2
    · rw [if_pos h2]
    · rw [if_neg h2, if_pos (by omega)]

/-- C5: for a symmetric, zero-diagonal matrix and a duplicate-free sequence of its
ids, `distance_sum` equals the sum of the entries strictly below the diagonal of
the induced sub-matrix, which is the sum over the unordered pairs of distinct
chosen indices (half the full double sum), and the value is unchanged under every
permutation of the input sequence. -/
theorem claim5_distance_sum (dm : DistanceMatrix) (elements : List String)
    (hsym : ∀ i < dm.n, ∀ j < dm.n, dm.d i j = dm.d j i)
    (hdiag : ∀ i < dm.n, dm.d i i = 0)
    (hsub : elements ⊆ dm.ids) (hnd : elements.Nodup) :
    distance_sum elements dm = lowerSum dm.d (elements.map (idIndex dm)) ∧
    distance_sum elements dm =
      (∑ a ∈ (elements.map (idIndex dm)).toFinset,
        ∑ b ∈ (elements.map (idIndex dm)).toFinset, dm.d a b) / 2 ∧
    ∀ elements' : List String, elements'.Perm elements →
      distance_sum elements' dm = distance_sum elements dm := by
  have hlow := distance_sum_eq_lowerSum dm hdiag (fun x hx => hsub hx)
  have hmapnd : (elements.map (idIndex dm)).Nodup := by
    refine List.Nodup.map_on ?_ hnd
    intro x hx y hy hxy
    have hx' : idIndex dm x < dm.ids.length := List.indexOf_lt_length.mpr (hsub hx)
    have hy' : idIndex dm y < dm.ids.length := List.indexOf_lt_length.mpr (hsub hy)
    have h1 := List.indexOf_get hx'
    have h2 := List.indexOf_get hy'
    rw [← h1, ← h2]
    congr 1
    exact Fin.ext hxy
  have hmapsym : ∀ i ∈ elements.map (idIndex dm), ∀ j ∈ elements.map (idIndex dm),
      dm.d i j = dm.d j i := by
    intro i hi j hj
    rcases List.mem_map.mp hi with ⟨a, ha, rfl⟩
    rcases List.mem_map.mp hj with ⟨b, hb, rfl⟩
    exact hsym _ (idIndex_lt dm (hsub ha)) _ (idIndex_lt dm (hsub hb))
  have hmapdiag : ∀ i ∈ elements.map (idIndex dm), dm.d i i = 0 := by
    intro i hi
    rcases List.mem_map.mp hi with ⟨a, ha, rfl⟩
    exact hdiag _ (idIndex_lt dm (hsub ha))
  refine ⟨hlow, ?_, ?_⟩
  · rw [hlow]
    exact lowerSum_nodup_eq_half dm.d _ hmapnd hmapsym hmapdiag
  · intro elements' hperm
    exact distance_sum_perm dm hsym (fun x hx => hsub (hperm.subset hx)) hperm

/-- C8: for valid arguments the greedy max-distance selector lists the selected
prototype ids in ascending original matrix-index order (the output is a
subsequence of the id sequence), not in discovery order: its members are exactly
the ids of the discovery-order index list `res_set`. -/
theorem claim8_maxdist_order (dm : DistanceMatrix) (k : ℕ) (hvalid : ValidDM dm)
    (h2 : 2 ≤ k) (hk : k < dm.n) :
    ∃ l, prototype_selection_constructive_maxdist dm k = .ok l ∧
      l.Sublist dm.ids ∧
      (∀ x, x ∈ l ↔ x ∈ (maxdistState dm k).1.map (fun j => dm.ids.getD j "")) := by
  obtain ⟨l, hok, hsub, hmem, _, _⟩ := maxdist_output dm k h2 hk
  refine ⟨l, hok, hsub, ?_⟩
  intro x
  rw [hmem x]
  constructor
  · rintro ⟨j, hj, rfl⟩
    exact List.mem_map.mpr ⟨j, hj, rfl⟩
  · intro hx
    rcases List.mem_map.mp hx with ⟨j, hj, rfl⟩
    exact ⟨j, hj, rfl⟩

/-- C4 (counterexample): on the valid matrix `dmTie` there is a tie for the
maximal objective between the lexicographically first combination `[a, b]` and
`[a, c]`; under a legitimate iteration order of the combination set (its
reverse), the exhaustive selector returns `[a, c]`, not the lexicographically
first maximal subset `[a, b]`.  The claimed canonical-order tie-break therefore
does not hold for the code, which iterates over an unordered `set(...)`. -/
theorem claim4_counterexample :
    ValidDM dmTie ∧
    revOrderTie.Perm (combinations 2 dmTie.ids) ∧
    combinations 2 dmTie.ids = [["a", "b"], ["a", "c"], ["b", "c"]] ∧
    distance_sum ["a", "b"] dmTie = distance_sum ["a", "c"] dmTie ∧
    distance_sum ["b", "c"] dmTie ≤ distance_sum ["a", "b"] dmTie ∧
    prototype_selection_exhaustive dmTie 2 200000 revOrderTie = .ok ["a", "c"] ∧
    prototype_selection_exhaustive dmTie 2 200000 revOrderTie ≠ .ok ["a", "b"] := by
  refine ⟨by decide, by decide, by decide, by with_unfolding_all rfl,
    of_decide_eq_true (by with_unfolding_all rfl), by with_unfolding_all rfl, ?_⟩
  intro h
  rw [show prototype_selection_exhaustive dmTie 2 200000 revOrderTie = .ok ["a", "c"]
    from by with_unfolding_all rfl] at h
  have := Except.ok.inj h
  simp at this

/-- C4 (amended): the exhaustive selector evaluates every size-k subset exactly
once, but in the unspecified iteration order of the Python set wrapping the
combination generator; it returns the first subset attaining the maximal
objective in that order, so a tie is broken by the set order rather than by the
lexicographic generation order. -/
theorem claim4_amended (dm : DistanceMatrix) (k mc : ℕ) (order : List (List String))
    (hids : dm.ids.Nodup) (h2 : 2 ≤ k) (hk : k < dm.n)
    (hmc : Nat.choose dm.n k < mc) (hperm : order.Perm (combinations k dm.ids)) :
    order.Nodup ∧
    (∀ s, s ∈ order ↔ (s.Sublist dm.ids ∧ s.length = k)) ∧
    ∃ pre l post, order = pre ++ l :: post ∧
      prototype_selection_exhaustive dm k mc order = .ok l ∧
      (∀ t ∈ pre, distance_sum t dm < distance_sum l dm) ∧
      (∀ t ∈ order, distance_sum t dm ≤ distance_sum l dm) := by
  obtain ⟨pre, l, post, hsplit, hexh, hlcomb, hprelt, hall⟩ :=
    exhaustive_ok dm k mc order h2 hk hmc hperm
  refine ⟨hperm.nodup_iff.mpr (nodup_combinations hids), ?_, pre, l, post, hsplit,
    hexh, hprelt, hall⟩
  intro s
  rw [hperm.mem_iff]
  exact mem_combinations

/-- C2 (counterexample): the all-zero three-element matrix is a valid distance
matrix, yet for `k = 2` the greedy max-distance selector returns without raising
and delivers a single id rather than two distinct ones: its seed argmax lands on
the diagonal entry `(0, 0)`. -/
theorem claim2_counterexample :
    ValidDM dmZero ∧
    prototype_selection_constructive_maxdist dmZero 2 = .ok ["a"] ∧
    (["a"] : List String).length ≠ 2 :=
  ⟨by decide, by with_unfolding_all rfl, by decide⟩

/-- C2 (amended): the exhaustive selector always returns exactly k distinct ids
of the matrix; the greedy max-distance selector does so provided all distances
between distinct elements are strictly positive (on degenerate matrices with
zero off-diagonal entries it can return fewer, as the counterexample shows); the
epsilon-search selector never returns normally on a valid instance (every
coverage run that would find a second prototype raises instead), so its clause
holds only vacuously. -/
theorem claim2_amended :
    (∀ (dm : DistanceMatrix) (k mc : ℕ) (order : List (List String)),
      dm.ids.Nodup → 2 ≤ k → k < dm.n → Nat.choose dm.n k < mc →
      order.Perm (combinations k dm.ids) →
      ∃ l, prototype_selection_exhaustive dm k mc order = .ok l ∧
        l.length = k ∧ l.Nodup ∧ l ⊆ dm.ids) ∧
    (∀ (dm : DistanceMatrix) (k : ℕ), ValidDM dm →
      (∀ i < dm.n, ∀ j < dm.n, i ≠ j → 0 < dm.d i j) → 2 ≤ k → k < dm.n →
      ∃ l, prototype_selection_constructive_maxdist dm k = .ok l ∧
        l.length = k ∧ l.Nodup ∧ l ⊆ dm.ids) ∧
    (∀ (dm : DistanceMatrix) (k steps fuel : ℕ), 2 ≤ k → k < dm.n →
      ∀ l, prototype_selection_constructive_protoclass dm k steps fuel ≠
        some (.ok l)) := by
  refine ⟨?_, ?_, ?_⟩
  · intro dm k mc order hids h2 hk hmc hperm
    obtain ⟨pre, l, post, hsplit, hexh, hlcomb, hprelt, hall⟩ :=
      exhaustive_ok dm k mc order h2 hk hmc hperm
    obtain ⟨hlsub, hllen⟩ := mem_combinations.mp hlcomb
    exact ⟨l, hexh, hllen, List.Nodup.sublist hlsub hids, hlsub.subset⟩
  · intro dm k hvalid hpos h2 hk
    obtain ⟨hids, hsym, hdiag, hnn⟩ := hvalid
    obtain ⟨l, hok, hlen, hnd, hsub⟩ := maxdist_exact dm k hdiag hpos h2 hk
    exact ⟨l, hok, hlen, hnd hids, hsub⟩
  · intro dm k steps fuel h2 hk
    exact protoclass_wrapper_no_ok dm k steps fuel h2 hk

/-- C1: for every valid matrix and every admissible k below the combination
ceiling, the exhaustive selector (under any iteration order of the combination
set) returns a size-k duplicate-free subset of the ids whose objective dominates
that of every size-k duplicate-free subset of the ids; consequently the objective
of any heuristic output never exceeds it: the greedy output (which can be
shorter than k) is dominated via extension, and the epsilon-search selector
never returns normally at all. -/
theorem claim1_exhaustive_optimal (dm : DistanceMatrix) (k mc : ℕ)
    (order : List (List String)) (hvalid : ValidDM dm) (h2 : 2 ≤ k) (hk : k < dm.n)
    (hmc : Nat.choose dm.n k < mc) (hperm : order.Perm (combinations k dm.ids)) :
    ∃ l, prototype_selection_exhaustive dm k mc order = .ok l ∧
      l.length = k ∧ l.Nodup ∧ l ⊆ dm.ids ∧
      (∀ s : List String, s.Nodup → s.length = k → s ⊆ dm.ids →
        distance_sum s dm ≤ distance_sum l dm) ∧
      (∀ l', prototype_selection_constructive_maxdist dm k = .ok l' →
        distance_sum l' dm ≤ distance_sum l dm) ∧
      (∀ steps fuel l',
        prototype_selection_constructive_protoclass dm k steps fuel =
          some (.ok l') →
        distance_sum l' dm ≤ distance_sum l dm) := by
  obtain ⟨hids, hsym, hdiag, hnn⟩ := hvalid
  obtain ⟨pre, l, post, hsplit, hexh, hlcomb, hprelt, hall⟩ :=
    exhaustive_ok dm k mc order h2 hk hmc hperm
  obtain ⟨hlsub, hllen⟩ := mem_combinations.mp hlcomb
  have hoptimal : ∀ s : List String, s.Nodup → s.length = k → s ⊆ dm.ids →
      distance_sum s dm ≤ distance_sum l dm := by
    intro s hsnd hslen hssub
    obtain ⟨t, htperm, htsub⟩ := List.subperm_of_subset hsnd hssub
    have htlen : t.length = k := htperm.length_eq.trans hslen
    have htcomb : t ∈ combinations k dm.ids := mem_combinations.mpr ⟨htsub, htlen⟩
    have htorder : t ∈ order := hperm.mem_iff.mpr htcomb
    have hle := hall t htorder
    have hds : distance_sum s dm = distance_sum t dm :=
      distance_sum_perm dm hsym (fun x hx => hssub hx) htperm.symm
    linarith
  refine ⟨l, hexh, hllen, List.Nodup.sublist hlsub hids, hlsub.subset, hoptimal,
    ?_, ?_⟩
  · intro l' hok'
    obtain ⟨l0, hok0, hsubl0, _, hle0, hnd0⟩ := maxdist_output dm k h2 hk
    have hl0 : l0 = l' := Except.ok.inj (hok0 ▸ hok')
    subst hl0
    have hnd' : l0.Nodup := hnd0 hids
    have hsub' : l0 ⊆ dm.ids := hsubl0.subset
    obtain ⟨r, hrnd, hrsub, hrlen, hrids⟩ :=
      exists_extension hids hnd' hsub' k hle0 (le_of_lt hk)
    have hmono : distance_sum l0 dm ≤ distance_sum (l0 ++ r) dm :=
      distance_sum_le_append dm hnn (fun x hx => hsub' hx) hrids
    have hopt := hoptimal (l0 ++ r) hrnd hrlen hrsub
    linarith
  · intro steps fuel l' hok'
    exact absurd hok' (protoclass_wrapper_no_ok dm k steps fuel h2 hk l')

/-- If no ball contains anything (epsilon at most zero on a non-negative matrix),
the coverage loop answers the empty prototype list at once. -/
theorem protoLoop_nocover (B : ℕ → ℕ → Bool) (n : ℕ) (hn0 : n ≠ 0)
    (hnone : ∀ i < n, ∀ j < n, B i j = false) (f : ℕ) :
    protoLoop B n (f + 1) (List.replicate n false) (protoInitScores B n) [] =
      some (.ok []) := by
  refine protoLoop_break_empty B n hn0 f ?_
  have hidx : np_argmax (protoInitScores B n) n < n :=
    np_argmax_lt _ _ (Nat.pos_of_ne_zero hn0)
  have hz : protoInitScores B n (np_argmax (protoInitScores B n) n) = 0 := by
    rw [protoInitScores]
    have : (List.range n).countP
        (fun i => B i (np_argmax (protoInitScores B n) n)) = 0 := by
      refine List.countP_eq_zero.mpr ?_
      intro i hi
      simp [hnone i (List.mem_range.mp hi) _ hidx]
    rw [this]
    rfl
  rw [hz]
  exact lt_irrefl 0

/-- If every ball contains everything (epsilon above the maximal entry), the
coverage loop appends one prototype, covers the whole set, and stops. -/
theorem protoLoop_allcover (B : ℕ → ℕ → Bool) (n : ℕ) (hn0 : n ≠ 0)
    (hall : ∀ i < n, ∀ j < n, B i j = true) (f : ℕ) :
    protoLoop B n (f + 2) (List.replicate n false) (protoInitScores B n) [] =
      some (.ok [np_argmax (protoInitScores B n) n]) := by
  have hnpos : 0 < n := Nat.pos_of_ne_zero hn0
  have hidx : np_argmax (protoInitScores B n) n < n := np_argmax_lt _ _ hnpos
  have hscore : ∀ j, j < n → protoInitScores B n j = (n : ℤ) := by
    intro j hj
    rw [protoInitScores]
    have : (List.range n).countP (fun i => B i j) = n := by
      rw [List.countP_eq_length.mpr ?_, List.length_range]
      intro i hi
      exact hall i (List.mem_range.mp hi) j hj
    rw [this]
  have hpos : 0 < protoInitScores B n (np_argmax (protoInitScores B n) n) := by
    rw [hscore _ hidx]
    exact_mod_cast hnpos
  have hscore2 : ∀ j, j < n → (protoNext B n (List.replicate n false)
      (protoInitScores B n) []).2.1 j = 0 := by
    intro j hj
    show protoInitScores B n j - ((List.range n).countP
        (fun x => (B x (np_argmax (protoInitScores B n) n) &&
          !((List.replicate n false).getD x false)) && B x j) : ℤ) = 0
    rw [hscore j hj]
    have : (List.range n).countP
        (fun x => (B x (np_argmax (protoInitScores B n) n) &&
          !((List.replicate n false).getD x false)) && B x j) = n := by
      rw [List.countP_eq_length.mpr ?_, List.length_range]
      intro x hx
      rw [getD_replicate_false, hall x (List.mem_range.mp hx) _ hidx,
        hall x (List.mem_range.mp hx) j hj]
      rfl
    rw [this]
    exact sub_self _
  have hzero2 : ¬ 0 < (protoNext B n (List.replicate n false)
      (protoInitScores B n) []).2.1 (np_argmax ((protoNext B n
        (List.replicate n false) (protoInitScores B n) []).2.1) n) := by
    have hidx2 : np_argmax ((protoNext B n (List.replicate n false)
        (protoInitScores B n) []).2.1) n < n := np_argmax_lt _ _ hnpos
    rw [hscore2 _ hidx2]
    exact lt_irrefl 0
  exact protoLoop_two_steps B n hn0 f hpos hzero2

/-- C7: on a non-negative matrix with at least one element, the coverage step at
epsilon = 0 returns the empty prototype list; at every epsilon strictly above the
maximal entry it returns exactly one prototype, whose ball covers the whole set. -/
theorem claim7_protoclass_extremes (dm : DistanceMatrix) (fuel : ℕ)
    (hnn : ∀ i < dm.n, ∀ j < dm.n, 0 ≤ dm.d i j) (hn : 1 ≤ dm.n)
    (hfuel : 2 ≤ fuel) :
    protoclass dm 0 fuel = some (.ok []) ∧
    ∀ epsilon : ℚ, (∀ i < dm.n, ∀ j < dm.n, dm.d i j < epsilon) →
      ∃ p, p < dm.n ∧ protoclass dm epsilon fuel = some (.ok [dm.ids.getD p ""]) ∧
        ∀ i < dm.n, dm.d i p < epsilon := by
  have hn0 : dm.n ≠ 0 := by omega
  constructor
  · obtain ⟨f, rfl⟩ : ∃ f, fuel = f + 1 := ⟨fuel - 1, by omega⟩
    have hnone : ∀ i < dm.n, ∀ j < dm.n, ballMatrix dm 0 i j = false := by
      intro i hi j hj
      simp only [ballMatrix, decide_eq_false_iff_not, not_lt]
      exact hnn i hi j hj
    rw [protoclass, protoLoop_nocover (ballMatrix dm 0) dm.n hn0 hnone f]
    rfl
  · intro epsilon heps
    have hall : ∀ i < dm.n, ∀ j < dm.n, ballMatrix dm epsilon i j = true := by
      intro i hi j hj
      simp only [ballMatrix, decide_eq_true_eq]
      exact heps i hi j hj
    obtain ⟨f, rfl⟩ : ∃ f, fuel = f + 2 := ⟨fuel - 2, by omega⟩
    have hidx : np_argmax (protoInitScores (ballMatrix dm epsilon) dm.n) dm.n <
        dm.n := np_argmax_lt _ _ (by omega)
    refine ⟨np_argmax (protoInitScores (ballMatrix dm epsilon) dm.n) dm.n, hidx,
      ?_, fun i hi => heps i hi _ hidx⟩
    rw [protoclass, protoLoop_allcover (ballMatrix dm epsilon) dm.n hn0 hall f]
    rfl

/-- C9: at every evaluation of the argmax in the coverage loop (that is, in every
reachable loop state), each score equals the number of currently uncovered
elements whose distance to the scored element is below epsilon, an element being
covered exactly when some chosen prototype's ball contains it (self-coverage is
counted through `B i i`); in particular no score is ever negative. -/
theorem claim9_scores_invariant (dm : DistanceMatrix) (epsilon : ℚ)
    (covered : List Bool) (scores : ℕ → ℤ) (prototypes : List ℕ)
    (hreach : ProtoReach (ballMatrix dm epsilon) dm.n covered scores prototypes) :
    ∀ j < dm.n,
      scores j = ((List.range dm.n).countP (fun i => ballMatrix dm epsilon i j &&
        !(prototypes.any (fun p => ballMatrix dm epsilon i p))) : ℤ) ∧
      0 ≤ scores j := by
  intro j hj
  have h := (protoReach_inv (ballMatrix dm epsilon) dm.n covered scores prototypes
    hreach).1 j hj
  refine ⟨h, ?_⟩
  rw [h]
  exact_mod_cast Nat.zero_le _

/-- C3 (code evaluation): on the valid three-element matrix with unit off-diagonal
distances and k = 2, the epsilon-search wrapper does not end its loop and raise
the convergence failure, nor return a truncated list: its very first coverage run
raises the broadcast error, which propagates. -/
theorem claim3_code_eval :
    ValidDM dmOnes ∧
    prototype_selection_constructive_protoclass dmOnes 2 100 2 =
      some (.error .BroadcastError) ∧
    prototype_selection_constructive_protoclass dmOnes 2 100 2 ≠
      some (.error .ConvergenceFailure) :=
  ⟨by decide, by with_unfolding_all rfl, by
    intro h
    rw [show prototype_selection_constructive_protoclass dmOnes 2 100 2 =
      some (.error .BroadcastError) from by with_unfolding_all rfl] at h
    have := Except.error.inj (Option.some.inj h)
    simp at this⟩

/-- C10 (code evaluation): on the same valid matrix at epsilon = 2/3 (its mean
entry), the coverage loop does not break normally after at most n appends: its
second prototype-appending iteration raises the broadcast error, independently of
the fuel given to the embedded loop. -/
theorem claim10_code_eval :
    protoclass dmOnes (2 / 3) 2 = some (.error .BroadcastError) ∧
    protoclass dmOnes (2 / 3) 5 = some (.error .BroadcastError) ∧
    protoclass dmOnes (2 / 3) 100 = some (.error .BroadcastError) :=
  ⟨by with_unfolding_all rfl, by with_unfolding_all rfl, by with_unfolding_all rfl⟩

/-- Witness for C1: the optimality theorem applied to the concrete tie matrix. -/
theorem claim1_witness :
    ∃ l, prototype_selection_exhaustive dmTie 2 200000
        (combinations 2 dmTie.ids) = .ok l ∧
      l.length = 2 ∧ l.Nodup ∧ l ⊆ dmTie.ids ∧
      (∀ s : List String, s.Nodup → s.length = 2 → s ⊆ dmTie.ids →
        distance_sum s dmTie ≤ distance_sum l dmTie) ∧
      (∀ l', prototype_selection_constructive_maxdist dmTie 2 = .ok l' →
        distance_sum l' dmTie ≤ distance_sum l dmTie) ∧
      (∀ steps fuel l',
        prototype_selection_constructive_protoclass dmTie 2 steps fuel =
          some (.ok l') →
        distance_sum l' dmTie ≤ distance_sum l dmTie) :=
  claim1_exhaustive_optimal dmTie 2 200000 _ (by decide) (by decide) (by decide)
    (by decide) (List.Perm.refl _)

/-- Witness for the amended C2: all three conjuncts applied to concrete inputs. -/
theorem claim2_amended_witness :
    (∃ l, prototype_selection_exhaustive dmTie 2 200000
        (combinations 2 dmTie.ids) = .ok l ∧
      l.length = 2 ∧ l.Nodup ∧ l ⊆ dmTie.ids) ∧
    (∃ l, prototype_selection_constructive_maxdist dmOnes 2 = .ok l ∧
      l.length = 2 ∧ l.Nodup ∧ l ⊆ dmOnes.ids) ∧
    (∀ l, prototype_selection_constructive_protoclass dmOnes 2 100 2 ≠
      some (.ok l)) :=
  ⟨claim2_amended.1 dmTie 2 200000 _ (by decide) (by decide) (by decide) (by decide)
      (List.Perm.refl _),
   claim2_amended.2.1 dmOnes 2 (by decide) (by decide) (by decide) (by decide),
   claim2_amended.2.2 dmOnes 2 100 2 (by decide) (by decide)⟩

/-- Witness for the amended C4: the first-maximum characterization applied to the
concrete tie matrix under the lexicographic order itself. -/
theorem claim4_amended_witness :
    (combinations 2 dmTie.ids).Nodup ∧
    (∀ s, s ∈ combinations 2 dmTie.ids ↔ (s.Sublist dmTie.ids ∧ s.length = 2)) ∧
    ∃ pre l post, combinations 2 dmTie.ids = pre ++ l :: post ∧
      prototype_selection_exhaustive dmTie 2 200000
        (combinations 2 dmTie.ids) = .ok l ∧
      (∀ t ∈ pre, distance_sum t dmTie < distance_sum l dmTie) ∧
      (∀ t ∈ combinations 2 dmTie.ids, distance_sum t dmTie ≤ distance_sum l dmTie) :=
  claim4_amended dmTie 2 200000 _ (by decide) (by decide) (by decide) (by decide)
    (List.Perm.refl _)

/-- Witness for C5: the objective evaluator on a concrete two-id subsequence. -/
theorem claim5_witness :
    distance_sum ["c", "a"] dmTie =
      lowerSum dmTie.d (["c", "a"].map (idIndex dmTie)) ∧
    distance_sum ["c", "a"] dmTie =
      (∑ a ∈ ((["c", "a"] : List String).map (idIndex dmTie)).toFinset,
        ∑ b ∈ ((["c", "a"] : List String).map (idIndex dmTie)).toFinset,
          dmTie.d a b) / 2 ∧
    ∀ elements' : List String, elements'.Perm ["c", "a"] →
      distance_sum elements' dmTie = distance_sum ["c", "a"] dmTie :=
  claim5_distance_sum dmTie ["c", "a"] (by decide) (by decide) (by decide) (by decide)

/-- Witness for C7: the coverage-step extremes on the concrete unit matrix, with
the large epsilon instantiated to 2. -/
theorem claim7_witness :
    protoclass dmOnes 0 2 = some (.ok []) ∧
    ∃ p, p < dmOnes.n ∧ protoclass dmOnes 2 2 = some (.ok [dmOnes.ids.getD p ""]) ∧
      ∀ i < dmOnes.n, dmOnes.d i p < 2 :=
  ⟨(claim7_protoclass_extremes dmOnes 2 (by decide) (by decide) (by decide)).1,
   (claim7_protoclass_extremes dmOnes 2 (by decide) (by decide) (by decide)).2 2
     (by decide)⟩

/-- Witness for C8: the ordering contract of the greedy selector on the concrete
unit matrix. -/
theorem claim8_witness :
    ∃ l, prototype_selection_constructive_maxdist dmOnes 2 = .ok l ∧
      l.Sublist dmOnes.ids ∧
      (∀ x, x ∈ l ↔ x ∈ (maxdistState dmOnes 2).1.map (fun j => dmOnes.ids.getD j "")) :=
  claim8_maxdist_order dmOnes 2 (by decide) (by decide) (by decide)

/-- Witness for C9: the score invariant read off at the initial state of the
coverage loop on the concrete unit matrix at epsilon = 1, for element 0. -/
theorem claim9_witness :
    protoInitScores (ballMatrix dmOnes 1) dmOnes.n 0 =
      ((List.range dmOnes.n).countP (fun i => ballMatrix dmOnes 1 i 0 &&
        !(([] : List ℕ).any (fun p => ballMatrix dmOnes 1 i p))) : ℤ) ∧
    0 ≤ protoInitScores (ballMatrix dmOnes 1) dmOnes.n 0 :=
  claim9_scores_invariant dmOnes 1 (List.replicate dmOnes.n false)
    (protoInitScores (ballMatrix dmOnes 1) dmOnes.n) [] ProtoReach.init 0 (by decide)
